import Mathlib

/-! # Phoenix-RTOS filesystems: meterfs SPI transaction driver and jffs2 object registry

Two parts of the repository are embedded.

* `Meterfs`: the functions of `meterfs/spi.c` (`gpio_pinSet`, `spi_powerCtrl`,
  `spi_readwrite`, `spi_transaction`).  The hardware is an explicit world: the
  chronological list of actions the driver performed, together with a device oracle that
  supplies the byte shifted in on every exchange.
* `Jffs2`: the object registry declared by `jffs2/os-phoenix/object.h`.  The header gives
  the object type and the five entry points; the file implementing them is not among the
  sources, so the registry and its gap-annotated red-black index follow the design
  document (sections 3, 4 and 8).  Identifiers range over `0 ≤ id < limit`, `limit` being
  the implementation-defined ceiling of section 4.2.

Definitions come first, the properties follow.
-/

namespace Meterfs

/-! ## Constants of `spi.h` / `spi.c` -/

/-- Flag bit of `spi.h`: the data phase reads into the buffer. -/
def spi_read : Nat := 0x1
/-- Flag bit of `spi.h`: a three byte address follows the command. -/
def spi_address : Nat := 0x2
/-- Flag bit of `spi.h`: one dummy byte precedes the data phase. -/
def spi_dummy : Nat := 0x4

/-- Message type tag of `enum { GPIO_CONFIG, GPIO_INTERRUPT, GPIO_GET, GPIO_SET, GPIO_DELAY }`. -/
def GPIO_SET : Nat := 3
/-- Port number of `enum { GPIOA = 0, GPIOB, ... }`. -/
def GPIOA : Int := 0
/-- Port number of `enum { GPIOA = 0, GPIOB, GPIOC, GPIOD, GPIOE, ... }`. -/
def GPIOE : Int := 4

/-- The `set` member of `gpiomsg_t`; the two `int` fields are kept as 32-bit patterns. -/
structure gpioset_t where
  mask : Nat
  state : Nat
  deriving DecidableEq, Repr

/-- The part of `gpiomsg_t` that `gpio_pinSet` fills in. -/
structure gpiomsg_t where
  type : Nat
  port : Int
  set : gpioset_t
  deriving DecidableEq, Repr

/-- Actions of the driver that are visible outside of it. -/
inductive Event where
  /-- Call of `keepidle(t)`. -/
  | keepidle (t : Int)
  /-- Call of `usleep(us)`. -/
  | usleep (us : Nat)
  /-- Message handed to the GPIO driver: `send(spi_common.gpio, DEVCTL, &devctl, ...)`. -/
  | send (devctl : gpiomsg_t)
  /-- One full-duplex exchange of `spi_readwrite`: byte written to `dr`, byte read back. -/
  | xfer (txd rxd : Nat)
  deriving DecidableEq, Repr

/-- The world the driver acts on: everything it did so far, oldest action first. -/
abbrev World := List Event

/-- The device on the bus: the byte it shifts out on the next exchange, as a function
of everything that happened before. -/
abbrev Device := World → Nat

/-! ## The functions of `spi.c` -/

/-- Embedding of `gpio_pinSet(port, pin, state)`: `mask = 1 << pin`,
`state = !!state << pin`, both as 32-bit patterns, sent as a `GPIO_SET` message. -/
def gpio_pinSet (port : Int) (pin : Nat) (state : Int) (w : World) : World :=
  w ++ [Event.send
    { type := GPIO_SET
      port := port
      set := { mask := (1 <<< pin) % 2 ^ 32
               state := ((if state ≠ 0 then 1 else 0) <<< pin) % 2 ^ 32 } }]

/-- Embedding of `spi_powerCtrl(state)`. -/
def spi_powerCtrl (state : Int) (w : World) : World :=
  let w := if state = 0 then gpio_pinSet GPIOE 12 1 w else w
  let w := gpio_pinSet GPIOA 4 state w
  if state ≠ 0 then gpio_pinSet GPIOE 12 0 (w ++ [Event.usleep 1000]) else w

/-- Embedding of `spi_readwrite(txd)`: the `unsigned char` argument goes out, the
`unsigned char` the device answers with comes back.  The wait for the transfer-complete
interrupt is taken to end (the exchange is one atomic action). -/
def spi_readwrite (dev : Device) (txd : Nat) (w : World) : Nat × World :=
  let rxd := dev w % 256
  (rxd, w ++ [Event.xfer (txd % 256) rxd])

/-- The loop `for (i = 0; i < 3; ++i) { spi_readwrite((addr >> 16) & 0xff); addr <<= 8; }`
with `n` iterations left; `addr` is `unsigned int`, so the shift is modulo `2^32`. -/
def addr_loop (dev : Device) : Nat → Nat → World → World
  | 0, _, w => w
  | n + 1, addr, w =>
    addr_loop dev n ((addr <<< 8) % 2 ^ 32) (spi_readwrite dev ((addr >>> 16) &&& 0xff) w).2

/-- The loop `for (i = 0; i < bufflen; ++i) buff[i] = spi_readwrite(0);` with `n`
iterations left and counter `i`. -/
def read_loop (dev : Device) : Nat → Nat → (Nat → Nat) → World → (Nat → Nat) × World
  | 0, _, buff, w => (buff, w)
  | n + 1, i, buff, w =>
    let r := spi_readwrite dev 0 w
    read_loop dev n (i + 1) (Function.update buff i r.1) r.2

/-- The loop `for (i = 0; i < bufflen; ++i) spi_readwrite(buff[i]);` with `n`
iterations left and counter `i`. -/
def write_loop (dev : Device) (buff : Nat → Nat) : Nat → Nat → World → World
  | 0, _, w => w
  | n + 1, i, w => write_loop dev buff n (i + 1) (spi_readwrite dev (buff i) w).2

/-- Embedding of `spi_transaction(cmd, addr, flags, buff, bufflen)`.  `buff` is the
memory seen through the pointer (`buff i` is `buff[i]`); the result is that memory after
the call and the world after the call.  The `int` loop counter is a natural number,
which is exact for `bufflen ≤ 2^31 - 1`. -/
def spi_transaction (dev : Device) (cmd addr flags : Nat) (buff : Nat → Nat)
    (bufflen : Nat) (w : World) : (Nat → Nat) × World :=
  let w := w ++ [Event.keepidle 1]
  let w := spi_powerCtrl 1 w
  let w := (spi_readwrite dev cmd w).2
  let w := if flags &&& spi_address ≠ 0 then addr_loop dev 3 addr w else w
  let w := if flags &&& spi_dummy ≠ 0 then (spi_readwrite dev 0 w).2 else w
  let r := if flags &&& spi_read ≠ 0 then read_loop dev bufflen 0 buff w
           else (buff, write_loop dev buff bufflen 0 w)
  let w := spi_powerCtrl 0 r.2
  (r.1, w ++ [Event.keepidle 0])

end Meterfs

namespace Meterfs

/-! ## Notions used to state the properties of a transaction -/

/-- Bytes handed to `spi_readwrite`, in order. -/
def txBytes (w : World) : List Nat :=
  w.filterMap fun e => match e with
    | .xfer t _ => some t
    | _ => none

/-- Bytes `spi_readwrite` returned, in order. -/
def rxBytes (w : World) : List Nat :=
  w.filterMap fun e => match e with
    | .xfer _ r => some r
    | _ => none

/-- The exchanges a device performs when the bytes `txs` are sent one after the other,
starting from history `w`. -/
def exchanges (dev : Device) : World → List Nat → World
  | _, [] => []
  | w, t :: ts =>
    Event.xfer (t % 256) (dev w % 256) :: exchanges dev (w ++ [Event.xfer (t % 256) (dev w % 256)]) ts

/-- Bytes the address loop sends when `n` iterations are left. -/
def addr_bytes : Nat → Nat → List Nat
  | 0, _ => []
  | n + 1, addr => ((addr >>> 16) &&& 0xff) :: addr_bytes n ((addr <<< 8) % 2 ^ 32)

/-- Bytes of one transaction in sending order: command, address, dummy, data. -/
def frame (cmd addr flags : Nat) (buff : Nat → Nat) (bufflen : Nat) : List Nat :=
  [cmd] ++ (if flags &&& spi_address ≠ 0 then addr_bytes 3 addr else [])
    ++ (if flags &&& spi_dummy ≠ 0 then [0] else [])
    ++ (if flags &&& spi_read ≠ 0 then List.replicate bufflen 0
        else (List.range bufflen).map buff)

/-- Number of exchanges before the data phase. -/
def header_len (flags : Nat) : Nat :=
  1 + (if flags &&& spi_address ≠ 0 then 3 else 0) + (if flags &&& spi_dummy ≠ 0 then 1 else 0)

/-- What `spi_powerCtrl(1)` after `keepidle(1)` leaves in the trace. -/
def power_up : World :=
  [Event.keepidle 1,
   Event.send { type := GPIO_SET, port := GPIOA, set := { mask := 1 <<< 4, state := 1 <<< 4 } },
   Event.usleep 1000,
   Event.send { type := GPIO_SET, port := GPIOE, set := { mask := 1 <<< 12, state := 0 } }]

/-- What `spi_powerCtrl(0)` followed by `keepidle(0)` leaves in the trace. -/
def power_down : World :=
  [Event.send { type := GPIO_SET, port := GPIOE, set := { mask := 1 <<< 12, state := 1 <<< 12 } },
   Event.send { type := GPIO_SET, port := GPIOA, set := { mask := 1 <<< 4, state := 0 } },
   Event.keepidle 0]

/-- The events one call of `spi_transaction` adds to the world. -/
def emitted (dev : Device) (cmd addr flags : Nat) (buff : Nat → Nat) (bufflen : Nat)
    (w : World) : World :=
  (spi_transaction dev cmd addr flags buff bufflen w).2.drop w.length

/-- Bytes sent before the data phase: command, address, dummy. -/
def header (cmd addr flags : Nat) : List Nat :=
  [cmd] ++ (if flags &&& spi_address ≠ 0 then addr_bytes 3 addr else [])
    ++ (if flags &&& spi_dummy ≠ 0 then [0] else [])

/-- Levels of the two lines the driver controls: PA4 (power enable) and PE12 (/CS). -/
structure Pins where
  pwen : Bool
  cs : Bool
  deriving DecidableEq, Repr

/-- Effect of one action on the lines: a `GPIO_SET` message drives the masked pins of
its port to the given state. -/
def Pins.step (p : Pins) : Event → Pins
  | .send m =>
    if m.type = GPIO_SET then
      { pwen := if m.port = GPIOA ∧ m.set.mask.testBit 4 then m.set.state.testBit 4 else p.pwen
        cs := if m.port = GPIOE ∧ m.set.mask.testBit 12 then m.set.state.testBit 12 else p.cs }
    else p
  | _ => p

/-- Levels after a trace. -/
def Pins.after (p : Pins) (w : World) : Pins := w.foldl Pins.step p

/-- Every exchange of the trace happens with power enabled and /CS low. -/
def selected_throughout : Pins → World → Bool
  | _, [] => true
  | p, e :: es =>
    (match e with
      | .xfer _ _ => p.pwen && !p.cs
      | _ => true) && selected_throughout (p.step e) es

/-- The event is an SPI exchange. -/
def Event.is_xfer : Event → Bool
  | .xfer _ _ => true
  | _ => false

/-- The event is a message to the GPIO driver. -/
def Event.is_send : Event → Bool
  | .send _ => true
  | _ => false

end Meterfs

namespace Jffs2

/-! ## Data model of `object.h` -/

/-- State tag of `enum { ST_ERROR, ST_LOCKED, ST_UNLOCKED }`. -/
def ST_ERROR : Nat := 0
/-- State tag of `enum { ST_ERROR, ST_LOCKED, ST_UNLOCKED }`. -/
def ST_LOCKED : Nat := 1
/-- State tag of `enum { ST_ERROR, ST_LOCKED, ST_UNLOCKED }`. -/
def ST_UNLOCKED : Nat := 2

/-- Modelled from the spec: the type `oid_t` of the `oid` member is declared outside the
sources; section 3 describes the id as a non-negative integer and the registry uses
nothing else of it. -/
structure oid_t where
  id : Nat
  deriving DecidableEq, Repr

/-- Embedding of `jffs2_object_t`.  `inode_info` and `lock` are opaque to the registry
(an address and a handle); the `rbnode_t node` member is the position of the object in
the `GapTree` below.  The two `int` gap fields hold counts of ids and are natural numbers
here, which is exact while the identifier ceiling is at most `2^31`. -/
structure jffs2_object_t where
  oid : oid_t
  inode_info : Nat
  refs : Nat
  type : Nat
  state : Nat
  lock : Nat
  rmaxgap : Nat
  lmaxgap : Nat
  deriving DecidableEq, Repr

/-- Key of an object in the index. -/
abbrev jffs2_object_t.id (o : jffs2_object_t) : Nat := o.oid.id

/-- Modelled from the spec: the node colour of the red-black index behind the `rbnode_t`
member (the tree library is not part of the sources). -/
inductive Color where
  | red
  | black
  deriving DecidableEq, Repr

/-- Modelled from the spec: the GapTree of section 4.1 (the file implementing it is not
part of the sources): an ordered, balanced search tree keyed by id whose nodes carry the
gap fields of their object. -/
inductive GapTree where
  | nil
  | node (c : Color) (l : GapTree) (o : jffs2_object_t) (r : GapTree)
  deriving DecidableEq, Repr

namespace GapTree

/-- Modelled from the spec: the gap a subtree reports to its parent, section 4.1:
"gap = max(gap(leftChild), distance to child's boundary)".  The subtree covers the ids
`lo ≤ i < hi`; an absent child reports the whole range as free. -/
def gap_of (lo hi : Nat) : GapTree → Nat
  | nil => hi - lo
  | node _ _ o _ => max o.lmaxgap o.rmaxgap

/-- Modelled from the spec: the single fix-up routine of section 9 (invoked on every
node a structural edit or rotation builds): both gap fields are recomputed from the
children. -/
def augment (c : Color) (lo hi : Nat) (l : GapTree) (o : jffs2_object_t) (r : GapTree) :
    GapTree :=
  node c l { o with lmaxgap := gap_of lo o.id l, rmaxgap := gap_of (o.id + 1) hi r } r

/-- Modelled from the spec: recolouring of a root, a step of red-black rebalancing (tree
library not in the sources); gap fields are untouched. -/
def paint (c : Color) : GapTree → GapTree
  | nil => nil
  | node _ l o r => node c l o r

/-- Modelled from the spec: test used by red-black deletion (tree library not in the
sources): the root exists and is black. -/
def is_black : GapTree → Bool
  | node .black _ _ _ => true
  | _ => false

/-- Modelled from the spec: `lookup(id)` of section 4.1, the ordinary search. -/
def lookup (k : Nat) : GapTree → Option jffs2_object_t
  | nil => none
  | node _ l o r =>
    if k < o.id then lookup k l else if o.id < k then lookup k r else some o

/-- The id is a key of the tree. -/
def contains (k : Nat) (t : GapTree) : Bool := (lookup k t).isSome

/-- Modelled from the spec: the allocation walk of section 4.1.  At a node with key `k`:
descend left when the left gap is positive, else descend right when the right gap is
positive; an absent subtree yields the first id of its range (`0` below the leftmost
key, `k + 1` right of `k`). -/
def find_free : Nat → Nat → GapTree → Option Nat
  | lo, hi, nil => if lo < hi then some lo else none
  | lo, hi, node _ l o r =>
    if 0 < o.lmaxgap then find_free lo o.id l
    else if 0 < o.rmaxgap then find_free (o.id + 1) hi r
    else none

/-- Modelled from the spec: rebalancing of the red-black index (tree library not in the
sources) after an insertion into the left subtree of a black node: rotation with
recolouring when a red child has a red child, every rebuilt node through `augment`. -/
def fix_left (lo hi : Nat) : GapTree → jffs2_object_t → GapTree → GapTree
  | node .red (node .red a x b) y c, z, d =>
    augment .red lo hi (augment .black lo y.id a x b) y (augment .black (y.id + 1) hi c z d)
  | node .red a x (node .red b y c), z, d =>
    augment .red lo hi (augment .black lo y.id a x b) y (augment .black (y.id + 1) hi c z d)
  | l, z, d => augment .black lo hi l z d

/-- Modelled from the spec: rebalancing of the red-black index (tree library not in the
sources) after an insertion into the right subtree of a black node. -/
def fix_right (lo hi : Nat) : GapTree → jffs2_object_t → GapTree → GapTree
  | a, x, node .red b y (node .red c z d) =>
    augment .red lo hi (augment .black lo y.id a x b) y (augment .black (y.id + 1) hi c z d)
  | a, x, node .red (node .red b y c) z d =>
    augment .red lo hi (augment .black lo y.id a x b) y (augment .black (y.id + 1) hi c z d)
  | a, x, r => augment .black lo hi a x r

/-- Modelled from the spec: the recursive part of the insertion of section 4.1 (tree
library not in the sources): object `x` goes below a node covering `lo ≤ i < hi`, and
every node on the way back up is rebuilt by `augment`. -/
def ins (x : jffs2_object_t) : Nat → Nat → GapTree → GapTree
  | lo, hi, nil => augment .red lo hi nil x nil
  | lo, hi, node c l y r =>
    if x.id < y.id then
      match c with
      | .black => fix_left lo hi (ins x lo y.id l) y r
      | .red => augment .red lo hi (ins x lo y.id l) y r
    else if y.id < x.id then
      match c with
      | .black => fix_right lo hi l y (ins x (y.id + 1) hi r)
      | .red => augment .red lo hi l y (ins x (y.id + 1) hi r)
    else node c l y r

/-- Modelled from the spec: insertion into the GapTree (section 4.1/4.2), red-black
insertion with the gap fix-up wired into every rebuilt node. -/
def insert (lo hi : Nat) (x : jffs2_object_t) (t : GapTree) : GapTree :=
  paint .black (ins x lo hi t)

/-- Modelled from the spec: rebalancing of the red-black index (tree library not in the
sources) after the left subtree lost one black level. -/
def fix_del_left (lo hi : Nat) (l : GapTree) (v : jffs2_object_t) (r : GapTree) : GapTree :=
  match l with
  | node .red a x b => augment .red lo hi (node .black a x b) v r
  | _ =>
    match r with
    | node .black a y b => fix_right lo hi l v (node .red a y b)
    | node .red (node .black a y b) z c =>
      augment .red lo hi (augment .black lo y.id l v a) y
        (fix_right (y.id + 1) hi b z (paint .red c))
    | _ => augment .red lo hi l v r

/-- Modelled from the spec: rebalancing of the red-black index (tree library not in the
sources) after the right subtree lost one black level. -/
def fix_del_right (lo hi : Nat) (l : GapTree) (v : jffs2_object_t) (r : GapTree) : GapTree :=
  match r with
  | node .red b y c => augment .red lo hi l v (node .black b y c)
  | _ =>
    match l with
    | node .black a x b => fix_left lo hi (node .red a x b) v r
    | node .red a x (node .black b y c) =>
      augment .red lo hi (fix_left lo y.id (paint .red a) x b) y
        (augment .black (y.id + 1) hi c v r)
    | _ => augment .red lo hi l v r

/-- Modelled from the spec: the gap recomputation of `remove` (section 4.1) on the side
of the predecessor: the gap fields along the right spine are recomputed for a subtree
whose upper boundary moved to `hi`. -/
def widen : Nat → Nat → GapTree → GapTree
  | _, _, nil => nil
  | lo, hi, node c l o r => augment c lo hi l o (widen (o.id + 1) hi r)

/-- Modelled from the spec: the successor step of the deletion of section 4.1 (tree
library not in the sources): detaches the smallest object of a subtree with upper
boundary `hi`; the rest is rebuilt for the range that starts right after that object. -/
def split_min (hi : Nat) : GapTree → Option (jffs2_object_t × GapTree)
  | nil => none
  | node _ l x r =>
    match split_min x.id l with
    | none => some (x, r)
    | some (m, l') =>
      some (m, if l.is_black then fix_del_left (m.id + 1) hi l' x r
               else augment .red (m.id + 1) hi l' x r)

/-- Modelled from the spec: the recursive part of `remove(id)` of section 4.1 (tree
library not in the sources): deletion of key `k` below a node covering `lo ≤ i < hi`.  A
node with two children is replaced by its successor; every node on the way back up is
rebuilt by `augment`. -/
def del (k : Nat) : Nat → Nat → GapTree → GapTree
  | _, _, nil => nil
  | lo, hi, node _ l y r =>
    if k < y.id then
      if l.is_black then fix_del_left lo hi (del k lo y.id l) y r
      else augment .red lo hi (del k lo y.id l) y r
    else if y.id < k then
      if r.is_black then fix_del_right lo hi l y (del k (y.id + 1) hi r)
      else augment .red lo hi l y (del k (y.id + 1) hi r)
    else
      match split_min hi r with
      | none => widen lo hi l
      | some (m, r') =>
        if r.is_black then fix_del_right lo hi (widen lo m.id l) m r'
        else augment .red lo hi (widen lo m.id l) m r'

/-- Modelled from the spec: `remove(id)` of section 4.1, "standard balanced-tree
deletion, followed by gap recomputation along the path from the deleted node's original
position to the root". -/
def remove (lo hi : Nat) (k : Nat) (t : GapTree) : GapTree :=
  paint .black (del k lo hi t)

/-- Modelled from the spec: the in-place change `get` / `put` make to the object with key
`k` (its reference count, section 4.3); the tree shape and the gap fields stay as they
are. -/
def update (k : Nat) (f : jffs2_object_t → jffs2_object_t) : GapTree → GapTree
  | nil => nil
  | node c l o r =>
    if k < o.id then node c (update k f l) o r
    else if o.id < k then node c l o (update k f r)
    else node c l (f o) r

/-- Objects of the index in key order. -/
def objects : GapTree → List jffs2_object_t
  | nil => []
  | node _ l o r => objects l ++ o :: objects r

end GapTree

/-! ## The registry -/

/-- Modelled from the spec: the process-wide pool behind `object_init`, `object_create`,
`object_get`, `object_put`, `object_destroy` (sections 4.2 to 4.4; `object.h` only
declares them): the index and the ids for which a destroy was requested and is still
waiting for the last reference to go. -/
structure Registry where
  tree : GapTree
  pending : List Nat
  deriving DecidableEq, Repr

/-- Modelled from the spec: `init()` of section 4.4/6 "establishes the empty pool". -/
def object_init : Registry := { tree := .nil, pending := [] }

/-- Modelled from the spec: the object `create` constructs (section 4.2): the allocated
id, `refcount = 1`, `state = Unlocked`; `type` is the `int` argument stored in the `u32`
member. -/
def new_object (id : Nat) (type : Int) : jffs2_object_t :=
  { oid := { id := id }
    inode_info := 0
    refs := 1
    type := (type % 2 ^ 32).toNat
    state := ST_UNLOCKED
    lock := 0
    rmaxgap := 0
    lmaxgap := 0 }

/-- Modelled from the spec: `create(kind)` of section 4.2: "calls GapTree's smallest-free
allocator, constructs an Object with that id, refcount = 1, state = Unlocked, inserts it,
returns an owned handle.  Fails with ResourceExhausted if no id can be allocated
(implementation-defined ceiling ...) or if backing memory cannot be obtained."
`limit` is the ceiling (ids are `0 ≤ id < limit`), `mem` tells whether memory is
available. -/
def object_create (limit : Nat) (type : Int) (mem : Bool) (r : Registry) :
    Registry × Option jffs2_object_t :=
  if mem then
    match r.tree.find_free 0 limit with
    | none => (r, none)
    | some id =>
      let t := GapTree.insert 0 limit (new_object id type) r.tree
      ({ r with tree := t }, t.lookup id)
  else (r, none)

/-- Modelled from the spec: `get(id)` of section 4.3: "looks up the object; if absent,
fails NotFound.  If found, atomically increments refcount and returns a handle."  The
count is the `u32 refs` member. -/
def object_get (id : Nat) (r : Registry) : Registry × Option jffs2_object_t :=
  match r.tree.lookup id with
  | none => (r, none)
  | some _ =>
    let t := r.tree.update id fun o => { o with refs := (o.refs + 1) % 2 ^ 32 }
    ({ r with tree := t }, t.lookup id)

/-- Modelled from the spec: `erase(id)` of section 4.2: "removes the node from the tree
and releases its storage"; a recorded destroy request goes with it. -/
def erase (limit : Nat) (id : Nat) (r : Registry) : Registry :=
  { tree := r.tree.remove 0 limit id, pending := r.pending.filter (· ≠ id) }

/-- Modelled from the spec: `put(handle)` of section 4.3: "atomically decrements
refcount.  If it reaches 0 and a destroy was requested earlier, the object transitions
out of the pool (ObjectPool.erase is invoked) as part of this call; otherwise the object
remains resident for reuse."  The handle is the id of the object; a handle of no object
in the index, or a put without a reference left (excluded by refcount conservation,
section 8), changes nothing. -/
def object_put (limit : Nat) (id : Nat) (r : Registry) : Registry :=
  match r.tree.lookup id with
  | none => r
  | some o =>
    if o.refs = 0 then r
    else if o.refs - 1 = 0 ∧ id ∈ r.pending then erase limit id r
    else { r with tree := r.tree.update id fun o => { o with refs := o.refs - 1 } }

/-- Modelled from the spec: `destroy` of section 4.3: "marks intent to remove; if
refcount is already 0, removal happens immediately; otherwise removal is deferred to the
matching put that drops the last reference" (section 6: "idempotent if already
pending"). -/
def object_destroy (limit : Nat) (id : Nat) (r : Registry) : Registry :=
  match r.tree.lookup id with
  | none => r
  | some o =>
    if o.refs = 0 then erase limit id r
    else if id ∈ r.pending then r
    else { r with pending := id :: r.pending }

/-- One call of the registry interface of `object.h` (after `object_init`). -/
inductive Call where
  | create (type : Int) (mem : Bool)
  | get (id : Nat)
  | put (id : Nat)
  | destroy (id : Nat)
  deriving DecidableEq, Repr

/-- Effect of one call on the registry. -/
def step (limit : Nat) (r : Registry) : Call → Registry
  | .create type mem => (object_create limit type mem r).1
  | .get id => (object_get id r).1
  | .put id => object_put limit id r
  | .destroy id => object_destroy limit id r

/-- The registry after `object_init` and the given calls. -/
def run (limit : Nat) (calls : List Call) : Registry :=
  calls.foldl (step limit) object_init

/-! ## Reference notions the claims compare with -/

/-- Full linear scan for the smallest unused id among `s, s+1, ..., s+n-1`. -/
def first_free (used : Nat → Bool) : Nat → Nat → Option Nat
  | _, 0 => none
  | s, n + 1 => if used s then first_free used (s + 1) n else some s

/-- Length of the run of unused ids that starts at `s`, cut off after `n` ids. -/
def free_run_at (used : Nat → Bool) : Nat → Nat → Nat
  | _, 0 => 0
  | s, n + 1 => if used s then 0 else free_run_at used (s + 1) n + 1

/-- Length of the longest run of consecutive unused ids among `s, ..., s+n-1`, by trying
every start. -/
def longest_free_run (used : Nat → Bool) : Nat → Nat → Nat
  | _, 0 => 0
  | s, n + 1 => max (free_run_at used s (n + 1)) (longest_free_run used (s + 1) n)

/-- `len` is the true length of the longest run of consecutive unused ids in
`lo ≤ i < hi`: some run of that length lies in the range, and no run in the range is
longer. -/
def LongestFreeRun (used : Nat → Bool) (lo hi len : Nat) : Prop :=
  (∃ s, lo ≤ s ∧ s + len ≤ hi ∧ ∀ j, s ≤ j → j < s + len → used j = false)
    ∧ ∀ s n, lo ≤ s → s + n ≤ hi → (∀ j, s ≤ j → j < s + n → used j = false) → n ≤ len

/-- Every node's `lmaxgap` / `rmaxgap` is the true longest free run of the range of its
left / right subtree, where the tree covers `lo ≤ i < hi` and `used` tells which ids are
in the index. -/
def GapsExact (used : Nat → Bool) : Nat → Nat → GapTree → Prop
  | _, _, .nil => True
  | lo, hi, .node _ l o r =>
    LongestFreeRun used lo o.id o.lmaxgap ∧ o.lmaxgap = longest_free_run used lo (o.id - lo)
      ∧ LongestFreeRun used (o.id + 1) hi o.rmaxgap
      ∧ o.rmaxgap = longest_free_run used (o.id + 1) (hi - (o.id + 1))
      ∧ GapsExact used lo o.id l ∧ GapsExact used (o.id + 1) hi r

/-- Structural invariant of the index below a node covering `lo ≤ i < hi`: keys are
ordered and inside the range, and every gap field agrees with what the children
report. -/
def Valid : Nat → Nat → GapTree → Prop
  | lo, hi, .nil => lo ≤ hi
  | lo, hi, .node _ l o r =>
    lo ≤ o.id ∧ o.id < hi ∧ Valid lo o.id l ∧ Valid (o.id + 1) hi r
      ∧ o.lmaxgap = GapTree.gap_of lo o.id l ∧ o.rmaxgap = GapTree.gap_of (o.id + 1) hi r

/-- Smallest unused id of a range: unused, inside the range, everything below it in the
range is used. -/
def SmallestFree (used : Nat → Bool) (lo hi i : Nat) : Prop :=
  lo ≤ i ∧ i < hi ∧ used i = false ∧ ∀ j, lo ≤ j → j < i → used j = true

/-- The object without its two gap fields (which belong to the tree, not to the
object's own data). -/
def strip (o : jffs2_object_t) : jffs2_object_t := { o with lmaxgap := 0, rmaxgap := 0 }

/-- Contents of the index in key order, gap fields blanked. -/
def entries (t : GapTree) : List jffs2_object_t := (GapTree.objects t).map strip

/-- The object stored under a key, gap fields blanked. -/
def payload (k : Nat) (t : GapTree) : Option jffs2_object_t := (GapTree.lookup k t).map strip

/-- Colour of the root; the empty tree counts as black. -/
def root_color : GapTree → Color
  | .nil => .black
  | .node c _ _ _ => c

/-- Number of black nodes on the leftmost path. -/
def black_height : GapTree → Nat
  | .nil => 0
  | .node .black l _ _ => black_height l + 1
  | .node .red l _ _ => black_height l

/-- No red node has a red child. -/
def no_red_red : GapTree → Prop
  | .nil => True
  | .node c l _ r =>
    (c = .red → root_color l = .black ∧ root_color r = .black) ∧ no_red_red l ∧ no_red_red r

/-- At every node both subtrees have the same black height. -/
def heights_agree : GapTree → Prop
  | .nil => True
  | .node _ l _ r => black_height l = black_height r ∧ heights_agree l ∧ heights_agree r

/-- The red-black shape of a balanced index: black root, no red node with a red child,
equal black heights in both subtrees of every node. -/
def RedBlack (t : GapTree) : Prop :=
  no_red_red t ∧ heights_agree t ∧ root_color t = .black

end Jffs2

/-! # Properties of the SPI transaction driver -/

namespace Meterfs

theorem exchanges_append (dev : Device) (xs ys : List Nat) (w : World) :
    exchanges dev w (xs ++ ys) = exchanges dev w xs ++ exchanges dev (w ++ exchanges dev w xs) ys := by
  induction xs generalizing w with
  | nil => simp [exchanges]
  | cons x xs ih => simp [exchanges, ih]

theorem txBytes_exchanges (dev : Device) (xs : List Nat) (w : World) :
    txBytes (exchanges dev w xs) = xs.map (· % 256) := by
  induction xs generalizing w with
  | nil => simp [exchanges, txBytes]
  | cons x xs ih =>
    have := ih (w ++ [Event.xfer (x % 256) (dev w % 256)])
    simp only [txBytes] at this ⊢
    simp [exchanges, this]

theorem length_exchanges (dev : Device) (xs : List Nat) (w : World) :
    (exchanges dev w xs).length = xs.length := by
  induction xs generalizing w with
  | nil => simp [exchanges]
  | cons x xs ih => simp [exchanges, ih]

theorem rxBytes_length_exchanges (dev : Device) (xs : List Nat) (w : World) :
    (rxBytes (exchanges dev w xs)).length = xs.length := by
  induction xs generalizing w with
  | nil => simp [exchanges, rxBytes]
  | cons x xs ih =>
    have := ih (w ++ [Event.xfer (x % 256) (dev w % 256)])
    simp only [rxBytes] at this ⊢
    simp [exchanges, this]

theorem addr_bytes_length (n addr : Nat) : (addr_bytes n addr).length = n := by
  induction n generalizing addr with
  | zero => rfl
  | succ n ih => simp [addr_bytes, ih]

theorem addr_bytes_lt (n addr : Nat) : ∀ b ∈ addr_bytes n addr, b < 256 := by
  induction n generalizing addr with
  | zero => simp [addr_bytes]
  | succ n ih =>
    intro b hb
    simp only [addr_bytes, List.mem_cons] at hb
    rcases hb with rfl | hb
    · exact Nat.lt_of_le_of_lt Nat.and_le_right (by decide)
    · exact ih _ b hb

theorem addr_loop_eq (dev : Device) (n addr : Nat) (w : World) :
    addr_loop dev n addr w = w ++ exchanges dev w (addr_bytes n addr) := by
  induction n generalizing addr w with
  | zero => simp [addr_loop, addr_bytes, exchanges]
  | succ n ih => simp [addr_loop, addr_bytes, exchanges, spi_readwrite, ih]

theorem write_loop_eq (dev : Device) (buff : Nat → Nat) (n i : Nat) (w : World) :
    write_loop dev buff n i w
      = w ++ exchanges dev w ((List.range n).map fun j => buff (i + j)) := by
  induction n generalizing i w with
  | zero => simp [write_loop, exchanges]
  | succ n ih =>
    simp only [write_loop, spi_readwrite, ih, List.range_succ_eq_map, List.map_cons,
      List.map_map, exchanges, List.append_assoc, List.singleton_append, Nat.add_zero]
    congr 3
    apply List.map_congr_left
    intro j _
    simp [Nat.add_assoc, Nat.add_comm 1 j]

theorem read_loop_world (dev : Device) (n i : Nat) (buff : Nat → Nat) (w : World) :
    (read_loop dev n i buff w).2 = w ++ exchanges dev w (List.replicate n 0) := by
  induction n generalizing i buff w with
  | zero => simp [read_loop, exchanges]
  | succ n ih => simp [read_loop, spi_readwrite, ih, List.replicate_succ, exchanges]

theorem read_loop_outside (dev : Device) (n i : Nat) (buff : Nat → Nat) (w : World) (k : Nat)
    (hk : k < i ∨ i + n ≤ k) : (read_loop dev n i buff w).1 k = buff k := by
  induction n generalizing i buff w with
  | zero => simp [read_loop]
  | succ n ih =>
    simp only [read_loop]
    rw [ih (i + 1) _ _ (by omega)]
    exact Function.update_noteq (by omega) _ _

theorem read_loop_inside (dev : Device) (n i : Nat) (buff : Nat → Nat) (w : World) (j : Nat)
    (hj : j < n) :
    some ((read_loop dev n i buff w).1 (i + j))
      = (rxBytes (exchanges dev w (List.replicate n 0)))[j]? := by
  induction n generalizing i buff w j with
  | zero => omega
  | succ n ih =>
    simp only [read_loop, List.replicate_succ, exchanges]
    cases j with
    | zero =>
      rw [read_loop_outside dev n (i + 1) _ _ (i + 0) (by omega)]
      simp [rxBytes, spi_readwrite]
    | succ j =>
      have := ih (i + 1) (Function.update buff i (spi_readwrite dev 0 w).1)
        (spi_readwrite dev 0 w).2 j (by omega)
      rw [show i + (j + 1) = i + 1 + j by omega, this]
      simp [rxBytes, spi_readwrite]

theorem spi_powerCtrl_on (w : World) :
    spi_powerCtrl 1 (w ++ [Event.keepidle 1]) = w ++ power_up := by
  simp [spi_powerCtrl, gpio_pinSet, power_up]

theorem spi_powerCtrl_off (w : World) :
    spi_powerCtrl 0 w ++ [Event.keepidle 0] = w ++ power_down := by
  simp [spi_powerCtrl, gpio_pinSet, power_down]

theorem spi_readwrite_eq (dev : Device) (t : Nat) (w : World) :
    (spi_readwrite dev t w).2 = w ++ exchanges dev w [t] := by
  simp [spi_readwrite, exchanges]

theorem addr_phase_eq (dev : Device) (c : Prop) [Decidable c] (addr : Nat) (w : World) :
    (if c then addr_loop dev 3 addr w else w)
      = w ++ exchanges dev w (if c then addr_bytes 3 addr else []) := by
  split <;> simp [addr_loop_eq, exchanges]

theorem dummy_phase_eq (dev : Device) (c : Prop) [Decidable c] (w : World) :
    (if c then (spi_readwrite dev 0 w).2 else w)
      = w ++ exchanges dev w (if c then [0] else []) := by
  split <;> simp [spi_readwrite_eq, exchanges]

theorem data_phase_eq (dev : Device) (c : Prop) [Decidable c] (buff : Nat → Nat)
    (bufflen : Nat) (w : World) :
    (if c then read_loop dev bufflen 0 buff w else (buff, write_loop dev buff bufflen 0 w)).2
      = w ++ exchanges dev w
          (if c then List.replicate bufflen 0 else (List.range bufflen).map buff) := by
  split
  · exact read_loop_world dev bufflen 0 buff w
  · simpa using write_loop_eq dev buff bufflen 0 w

theorem spi_transaction_world (dev : Device) (cmd addr flags : Nat) (buff : Nat → Nat)
    (bufflen : Nat) (w : World) :
    (spi_transaction dev cmd addr flags buff bufflen w).2
      = w ++ (power_up ++ exchanges dev (w ++ power_up) (frame cmd addr flags buff bufflen)
          ++ power_down) := by
  unfold spi_transaction
  dsimp only
  rw [spi_powerCtrl_on, addr_phase_eq, dummy_phase_eq, data_phase_eq, spi_powerCtrl_off,
    spi_readwrite_eq dev cmd]
  simp only [frame, exchanges_append, List.append_assoc]

theorem emitted_eq (dev : Device) (cmd addr flags : Nat) (buff : Nat → Nat)
    (bufflen : Nat) (w : World) :
    emitted dev cmd addr flags buff bufflen w
      = power_up ++ exchanges dev (w ++ power_up) (frame cmd addr flags buff bufflen)
          ++ power_down := by
  simp [emitted, spi_transaction_world]

theorem txBytes_append (a b : World) : txBytes (a ++ b) = txBytes a ++ txBytes b := by
  simp [txBytes]

theorem rxBytes_append (a b : World) : rxBytes (a ++ b) = rxBytes a ++ rxBytes b := by
  simp [rxBytes]

theorem txBytes_emitted (dev : Device) (cmd addr flags : Nat) (buff : Nat → Nat)
    (bufflen : Nat) (w : World) :
    txBytes (emitted dev cmd addr flags buff bufflen w)
      = (frame cmd addr flags buff bufflen).map (· % 256) := by
  rw [emitted_eq, txBytes_append, txBytes_append, txBytes_exchanges]
  simp [txBytes, power_up, power_down]

theorem header_length (cmd addr flags : Nat) :
    (header cmd addr flags).length = header_len flags := by
  unfold header header_len
  split <;> split <;> simp [addr_bytes_length]

theorem frame_eq_header (cmd addr flags : Nat) (buff : Nat → Nat) (bufflen : Nat) :
    frame cmd addr flags buff bufflen
      = header cmd addr flags
        ++ (if flags &&& spi_read ≠ 0 then List.replicate bufflen 0
            else (List.range bufflen).map buff) := rfl

theorem spi_transaction_buff (dev : Device) (cmd addr flags : Nat) (buff : Nat → Nat)
    (bufflen : Nat) (w : World) :
    (spi_transaction dev cmd addr flags buff bufflen w).1
      = if flags &&& spi_read ≠ 0 then
          (read_loop dev bufflen 0 buff
            (w ++ power_up ++ exchanges dev (w ++ power_up) (header cmd addr flags))).1
        else buff := by
  unfold spi_transaction
  dsimp only
  rw [spi_powerCtrl_on, addr_phase_eq, dummy_phase_eq, spi_readwrite_eq dev cmd]
  split
  · simp only [header, exchanges_append, List.append_assoc]
  · rfl

theorem rxBytes_emitted (dev : Device) (cmd addr flags : Nat) (buff : Nat → Nat)
    (bufflen : Nat) (w : World) :
    rxBytes (emitted dev cmd addr flags buff bufflen w)
      = rxBytes (exchanges dev (w ++ power_up) (header cmd addr flags))
        ++ rxBytes (exchanges dev
            (w ++ power_up ++ exchanges dev (w ++ power_up) (header cmd addr flags))
            (if flags &&& spi_read ≠ 0 then List.replicate bufflen 0
             else (List.range bufflen).map buff)) := by
  rw [emitted_eq, frame_eq_header, exchanges_append, rxBytes_append, rxBytes_append,
    rxBytes_append]
  simp [rxBytes, power_up, power_down]

theorem exchanges_all_xfer (dev : Device) (xs : List Nat) (w : World) :
    (exchanges dev w xs).all Event.is_xfer = true := by
  induction xs generalizing w with
  | nil => rfl
  | cons x xs ih => simp [exchanges, Event.is_xfer, ih]

theorem after_xfers (p : Pins) (X : World) (h : X.all Event.is_xfer = true) :
    p.after X = p := by
  induction X with
  | nil => rfl
  | cons e X ih =>
    cases e <;> simp_all [Pins.after, Event.is_xfer, Pins.step]

theorem selected_xfers (p : Pins) (X : World) (h : X.all Event.is_xfer = true)
    (hp : p.pwen = true ∧ p.cs = false) : selected_throughout p X = true := by
  induction X with
  | nil => rfl
  | cons e X ih =>
    cases e <;> simp_all [selected_throughout, Event.is_xfer, Pins.step]

theorem selected_append (p : Pins) (a b : World) :
    selected_throughout p (a ++ b)
      = (selected_throughout p a && selected_throughout (p.after a) b) := by
  induction a generalizing p with
  | nil => simp [selected_throughout, Pins.after]
  | cons e a ih => simp [selected_throughout, Pins.after, ih, Bool.and_assoc]

theorem after_append (p : Pins) (a b : World) : p.after (a ++ b) = (p.after a).after b := by
  simp [Pins.after]

end Meterfs

namespace Meterfs

theorem addr_bytes_three (addr : Nat) :
    addr_bytes 3 addr = [(addr >>> 16) &&& 0xff, (addr >>> 8) &&& 0xff, addr &&& 0xff] := by
  have h255 : ∀ x : Nat, x &&& 255 = x % 256 := fun x =>
    Nat.and_pow_two_sub_one_eq_mod x 8
  simp only [addr_bytes, h255, Nat.shiftRight_eq_div_pow, Nat.shiftLeft_eq, List.cons.injEq,
    and_true, true_and]
  norm_num
  omega

theorem addr_bytes_congr (addr addr' : Nat) (h : addr' % 2 ^ 24 = addr % 2 ^ 24) :
    addr_bytes 3 addr' = addr_bytes 3 addr := by
  have h255 : ∀ x : Nat, x &&& 255 = x % 256 := fun x =>
    Nat.and_pow_two_sub_one_eq_mod x 8
  rw [addr_bytes_three, addr_bytes_three]
  simp only [h255, Nat.shiftRight_eq_div_pow, List.cons.injEq, and_true]
  norm_num at h ⊢
  omega

theorem map_mod_frame (cmd addr flags : Nat) (buff : Nat → Nat) (bufflen : Nat)
    (hcmd : cmd < 256) (hbuff : ∀ i, i < bufflen → buff i < 256) :
    (frame cmd addr flags buff bufflen).map (· % 256) = frame cmd addr flags buff bufflen := by
  have hall : ∀ b ∈ frame cmd addr flags buff bufflen, b < 256 := by
    intro b hb
    simp only [frame, List.mem_append, List.mem_singleton] at hb
    rcases hb with ((rfl | hb) | hb) | hb
    · exact hcmd
    · split at hb
      · exact addr_bytes_lt 3 addr b hb
      · simp at hb
    · split at hb <;> simp at hb
      omega
    · split at hb
      · simp at hb
        omega
      · simp only [List.mem_map, List.mem_range] at hb
        obtain ⟨i, hi, rfl⟩ := hb
        exact hbuff i hi
  conv_rhs => rw [← List.map_id (frame cmd addr flags buff bufflen)]
  apply List.map_congr_left
  intro b hb
  exact Nat.mod_eq_of_lt (hall b hb)

/-- C4. Framing of `spi_transaction`: the bytes handed to `spi_readwrite` are the command
byte, then the three address bytes exactly when `spi_address` is set, then one zero byte
exactly when `spi_dummy` is set, then `bufflen` data bytes (zeros when `spi_read` is set,
otherwise `buff[0] .. buff[bufflen-1]` in index order), and nothing else; their number is
`1 + 3*[spi_address] + [spi_dummy] + bufflen`. -/
theorem spi_transaction_framing (dev : Device) (cmd addr flags : Nat) (buff : Nat → Nat)
    (bufflen : Nat) (w : World) (hcmd : cmd < 256)
    (hbuff : ∀ i, i < bufflen → buff i < 256) (_hlen : bufflen ≤ 2 ^ 31 - 1) :
    txBytes (emitted dev cmd addr flags buff bufflen w)
        = [cmd] ++ (if flags &&& spi_address ≠ 0 then addr_bytes 3 addr else [])
            ++ (if flags &&& spi_dummy ≠ 0 then [0] else [])
            ++ (if flags &&& spi_read ≠ 0 then List.replicate bufflen 0
                else (List.range bufflen).map buff)
      ∧ (addr_bytes 3 addr).length = 3
      ∧ (txBytes (emitted dev cmd addr flags buff bufflen w)).length
          = 1 + 3 * (if flags &&& spi_address ≠ 0 then 1 else 0)
              + (if flags &&& spi_dummy ≠ 0 then 1 else 0) + bufflen
      ∧ ((emitted dev cmd addr flags buff bufflen w).filter Event.is_xfer).length
          = 1 + 3 * (if flags &&& spi_address ≠ 0 then 1 else 0)
              + (if flags &&& spi_dummy ≠ 0 then 1 else 0) + bufflen := by
  have htx := txBytes_emitted dev cmd addr flags buff bufflen w
  rw [map_mod_frame cmd addr flags buff bufflen hcmd hbuff] at htx
  have hlen : (frame cmd addr flags buff bufflen).length
      = 1 + 3 * (if flags &&& spi_address ≠ 0 then 1 else 0)
          + (if flags &&& spi_dummy ≠ 0 then 1 else 0) + bufflen := by
    unfold frame
    split <;> split <;> split <;> simp [addr_bytes_length] <;> omega
  refine ⟨htx, addr_bytes_length 3 addr, by rw [htx, hlen], ?_⟩
  rw [emitted_eq, List.filter_append, List.filter_append,
    List.filter_eq_self.mpr (fun e he => List.all_eq_true.mp
      (exchanges_all_xfer dev _ _) e he)]
  simp [power_up, power_down, Event.is_xfer, hlen, length_exchanges]

end Meterfs

namespace Meterfs

/-- Witness of C4: fast read (`cmd_hsread`) at address `0x123456` with address, dummy and
read flags, two data bytes. -/
theorem spi_transaction_framing_witness :
    (0x0b < 256 ∧ (∀ i, i < 2 → (fun _ => 0x5a) i < 256) ∧ 2 ≤ 2 ^ 31 - 1)
      ∧ txBytes (emitted (fun _ => 0xc3) 0x0b 0x123456 7 (fun _ => 0x5a) 2 [])
          = [0x0b, 0x12, 0x34, 0x56, 0, 0, 0] :=
  ⟨⟨by decide, fun _ _ => by norm_num, by decide⟩,
    (spi_transaction_framing (fun _ => 0xc3) 0x0b 0x123456 7 (fun _ => 0x5a) 2 []
      (by decide) (fun _ _ => by norm_num) (by decide)).1.trans (by decide)⟩

/-- C5. Buffer effect of `spi_transaction`: with `spi_read` set, `buff[i]` for `i < bufflen`
is the byte returned by the `i`-th data-phase exchange (the exchanges of the command,
address and dummy phases come first and are not stored) and no index `≥ bufflen` changes;
without `spi_read` the buffer is unchanged. -/
theorem spi_transaction_buffer (dev : Device) (cmd addr flags : Nat) (buff : Nat → Nat)
    (bufflen : Nat) (w : World) (_hlen : bufflen ≤ 2 ^ 31 - 1) :
    (flags &&& spi_read ≠ 0 →
        (∀ i, i < bufflen →
          some ((spi_transaction dev cmd addr flags buff bufflen w).1 i)
            = (rxBytes (emitted dev cmd addr flags buff bufflen w))[header_len flags + i]?)
        ∧ (∀ i, bufflen ≤ i →
          (spi_transaction dev cmd addr flags buff bufflen w).1 i = buff i))
      ∧ (flags &&& spi_read = 0 →
        (spi_transaction dev cmd addr flags buff bufflen w).1 = buff) := by
  refine ⟨fun hr => ⟨fun i hi => ?_, fun i hi => ?_⟩, fun hr => ?_⟩
  · rw [spi_transaction_buff, if_pos hr, rxBytes_emitted, if_pos hr,
      List.getElem?_append_right (by
        rw [rxBytes_length_exchanges, header_length]; omega),
      rxBytes_length_exchanges, header_length, Nat.add_sub_cancel_left]
    simpa using read_loop_inside dev bufflen 0 buff _ i hi
  · rw [spi_transaction_buff, if_pos hr]
    exact read_loop_outside dev bufflen 0 buff _ i (Or.inr (by omega))
  · rw [spi_transaction_buff, if_neg (by simpa using hr)]

/-- Witness of C5: a read of two bytes after command and address; the device answers with
the number of actions seen so far. -/
theorem spi_transaction_buffer_witness :
    2 ≤ 2 ^ 31 - 1
      ∧ rxBytes (emitted (fun h => h.length) 0x03 0x10 3 (fun _ => 0xee) 2 []) = [4, 5, 6, 7, 8, 9]
      ∧ (spi_transaction (fun h => h.length) 0x03 0x10 3 (fun _ => 0xee) 2 []).1 0 = 8
      ∧ (spi_transaction (fun h => h.length) 0x03 0x10 3 (fun _ => 0xee) 2 []).1 1 = 9
      ∧ (spi_transaction (fun h => h.length) 0x03 0x10 3 (fun _ => 0xee) 2 []).1 2 = 0xee := by
  have h := spi_transaction_buffer (fun h => h.length) 0x03 0x10 3 (fun _ => 0xee) 2 []
    (by decide)
  have hrx : rxBytes (emitted (fun h => h.length) 0x03 0x10 3 (fun _ => 0xee) 2 [])
      = [4, 5, 6, 7, 8, 9] := by decide
  have h0 := (h.1 (by decide)).1 0 (by decide)
  have h1 := (h.1 (by decide)).1 1 (by decide)
  have h2 := (h.1 (by decide)).2 2 (by decide)
  have hh : header_len 3 = 4 := by decide
  rw [hrx, hh] at h0 h1
  exact ⟨by decide, hrx, by simpa using h0, by simpa using h1, h2⟩

end Meterfs

namespace Meterfs

theorem txBytes_emitted_frame (dev : Device) (cmd addr flags : Nat) (buff : Nat → Nat)
    (bufflen : Nat) (w : World) :
    txBytes (emitted dev cmd addr flags buff bufflen w)
      = (cmd % 256) :: ((if flags &&& spi_address ≠ 0 then addr_bytes 3 addr else [])
          ++ ((if flags &&& spi_dummy ≠ 0 then [0] else [])
          ++ (if flags &&& spi_read ≠ 0 then List.replicate bufflen 0
              else (List.range bufflen).map buff)).map (· % 256)) := by
  rw [txBytes_emitted]
  simp only [frame, List.map_append, List.map_cons, List.map_nil, List.singleton_append,
    List.cons_append, List.append_assoc, List.cons.injEq, true_and, List.nil_append]
  congr 1
  split
  · conv_rhs => rw [← List.map_id (addr_bytes 3 addr)]
    exact List.map_congr_left fun b hb => Nat.mod_eq_of_lt (addr_bytes_lt 3 addr b hb)
  · rfl

/-- C7. The 24-bit big-endian address: with `spi_address` set the three bytes following
the command are `(addr >> 16) & 0xff`, `(addr >> 8) & 0xff`, `addr & 0xff`, the in-loop
`addr <<= 8` being taken modulo `2^32`; bits 31..24 of `addr` influence nothing: two calls
whose `addr` agree modulo `2^24` send the same bytes, and with the same device and history
they produce the same world and buffer. -/
theorem spi_transaction_address (dev : Device) (cmd addr flags : Nat) (buff : Nat → Nat)
    (bufflen : Nat) (w : World) (_haddr : addr < 2 ^ 32) :
    (flags &&& spi_address ≠ 0 →
        ((txBytes (emitted dev cmd addr flags buff bufflen w)).drop 1).take 3
          = [(addr >>> 16) &&& 0xff, (addr >>> 8) &&& 0xff, addr &&& 0xff])
      ∧ (∀ addr', addr' < 2 ^ 32 → addr' % 2 ^ 24 = addr % 2 ^ 24 →
          (∀ (dev' : Device) (w' : World),
            txBytes (emitted dev' cmd addr' flags buff bufflen w')
              = txBytes (emitted dev cmd addr flags buff bufflen w))
          ∧ spi_transaction dev cmd addr' flags buff bufflen w
              = spi_transaction dev cmd addr flags buff bufflen w) := by
  refine ⟨fun ha => ?_, fun addr' _ hmod => ⟨fun dev' w' => ?_, ?_⟩⟩
  · rw [txBytes_emitted_frame, if_pos ha, ← addr_bytes_three]
    simp only [List.drop_succ_cons, List.drop_zero]
    rw [List.take_append_of_le_length (by rw [addr_bytes_length]),
      List.take_of_length_le (by rw [addr_bytes_length])]
  · rw [txBytes_emitted_frame, txBytes_emitted_frame, addr_bytes_congr addr addr' hmod]
  · apply Prod.ext
    · rw [spi_transaction_buff, spi_transaction_buff, header, header,
        addr_bytes_congr addr addr' hmod]
    · rw [spi_transaction_world, spi_transaction_world, frame, frame,
        addr_bytes_congr addr addr' hmod]

/-- Witness of C7: address `0xab123456`; its top byte is not sent, and `0x00123456`
gives the same call. -/
theorem spi_transaction_address_witness :
    0xab123456 < 2 ^ 32
      ∧ ((txBytes (emitted (fun _ => 0) 0x02 0xab123456 2 (fun i => i + 1) 2 [])).drop 1).take 3
          = [0x12, 0x34, 0x56]
      ∧ spi_transaction (fun _ => 0) 0x02 0x00123456 2 (fun i => i + 1) 2 []
          = spi_transaction (fun _ => 0) 0x02 0xab123456 2 (fun i => i + 1) 2 [] :=
  have h := spi_transaction_address (fun _ => 0) 0x02 0xab123456 2 (fun i => i + 1) 2 []
    (by decide)
  ⟨by decide, (h.1 (by decide)).trans (by decide),
    (h.2 0x00123456 (by decide) (by decide)).2⟩

theorem state_subset_mask (pin : Nat) (state : Int) :
    (((if state ≠ 0 then 1 else 0) <<< pin) % 2 ^ 32) &&& ((1 <<< pin) % 2 ^ 32)
      = ((if state ≠ 0 then 1 else 0) <<< pin) % 2 ^ 32 := by
  split
  · exact Nat.and_self _
  · simp

/-- C8. Chip-select bracketing: one call of `spi_transaction` adds, in this order, PA4
(power enable) driven to 1, PE12 (/CS) driven to 0, the SPI exchanges of the frame, PE12
driven to 1, PA4 driven to 0 (with `keepidle` around and the `usleep` after power-up);
so every exchange happens with power enabled and /CS low whatever the lines were before,
exactly four GPIO set-messages are sent, and the call ends with /CS high and power off.
A message of `gpio_pinSet(port, pin, state)` carries `mask = 1 << pin` and
`state = (state != 0) << pin`, whose bits are a subset of the mask. -/
theorem spi_transaction_chip_select (dev : Device) (cmd addr flags : Nat)
    (buff : Nat → Nat) (bufflen : Nat) (w : World) :
    (spi_transaction dev cmd addr flags buff bufflen w).2
        = w ++ emitted dev cmd addr flags buff bufflen w
      ∧ (∃ X : World, X.all Event.is_xfer = true
          ∧ X.length = header_len flags + bufflen
          ∧ emitted dev cmd addr flags buff bufflen w
            = [Event.keepidle 1,
               Event.send { type := GPIO_SET, port := GPIOA, set := { mask := 16, state := 16 } },
               Event.usleep 1000,
               Event.send { type := GPIO_SET, port := GPIOE, set := { mask := 4096, state := 0 } }]
              ++ X ++
              [Event.send { type := GPIO_SET, port := GPIOE, set := { mask := 4096, state := 4096 } },
               Event.send { type := GPIO_SET, port := GPIOA, set := { mask := 16, state := 0 } },
               Event.keepidle 0])
      ∧ (∀ p : Pins, selected_throughout p (emitted dev cmd addr flags buff bufflen w) = true)
      ∧ ((emitted dev cmd addr flags buff bufflen w).filter Event.is_send).length = 4
      ∧ (∀ p : Pins, p.after (emitted dev cmd addr flags buff bufflen w)
          = { pwen := false, cs := true })
      ∧ (∀ (port : Int) (pin : Nat) (state : Int) (w0 : World),
          ∃ m : gpiomsg_t, gpio_pinSet port pin state w0 = w0 ++ [Event.send m]
            ∧ m.type = GPIO_SET ∧ m.port = port
            ∧ m.set.mask = (1 <<< pin) % 2 ^ 32
            ∧ m.set.state = ((if state ≠ 0 then 1 else 0) <<< pin) % 2 ^ 32
            ∧ m.set.state &&& m.set.mask = m.set.state) := by
  have hX := exchanges_all_xfer dev (frame cmd addr flags buff bufflen) (w ++ power_up)
  have hup : ∀ p : Pins, p.after power_up = { pwen := true, cs := false } := by
    rintro ⟨_ | _, _ | _⟩ <;> decide
  have hdown : ∀ p : Pins, p.after power_down = { pwen := false, cs := true } := by
    rintro ⟨_ | _, _ | _⟩ <;> decide
  have hsel_up : ∀ p : Pins, selected_throughout p power_up = true := by
    rintro ⟨_ | _, _ | _⟩ <;> decide
  have hsel_down : ∀ p : Pins, selected_throughout p power_down = true := by
    rintro ⟨_ | _, _ | _⟩ <;> decide
  have hsend : (exchanges dev (w ++ power_up) (frame cmd addr flags buff bufflen)).filter
      Event.is_send = [] := by
    apply List.filter_eq_nil_iff.mpr
    intro e he
    have := List.all_eq_true.mp hX e he
    cases e <;> simp_all [Event.is_xfer, Event.is_send]
  refine ⟨?_, ⟨_, hX, ?_, emitted_eq dev cmd addr flags buff bufflen w⟩, ?_, ?_, ?_, ?_⟩
  · rw [spi_transaction_world, emitted_eq]
  · rw [length_exchanges, frame_eq_header, List.length_append, header_length]
    split <;> simp
  · intro p
    rw [emitted_eq, selected_append, selected_append, hup, hsel_up, hsel_down,
      selected_xfers _ _ hX ⟨rfl, rfl⟩]
    rfl
  · rw [emitted_eq, List.filter_append, List.filter_append, hsend]
    rfl
  · intro p
    rw [emitted_eq, after_append, hdown]
  · intro port pin state w0
    exact ⟨_, rfl, rfl, rfl, rfl, rfl, state_subset_mask pin state⟩

/-- Witness of C8: a status read (`cmd_rdsr`, one data byte); the device answers with the
number of actions seen so far. -/
theorem spi_transaction_chip_select_witness :
    emitted (fun h => h.length) 0x05 0 1 (fun _ => 0) 1 []
        = [Event.keepidle 1,
           Event.send { type := GPIO_SET, port := GPIOA, set := { mask := 16, state := 16 } },
           Event.usleep 1000,
           Event.send { type := GPIO_SET, port := GPIOE, set := { mask := 4096, state := 0 } },
           Event.xfer 5 4,
           Event.xfer 0 5,
           Event.send { type := GPIO_SET, port := GPIOE, set := { mask := 4096, state := 4096 } },
           Event.send { type := GPIO_SET, port := GPIOA, set := { mask := 16, state := 0 } },
           Event.keepidle 0]
      ∧ selected_throughout { pwen := false, cs := true }
          (emitted (fun h => h.length) 0x05 0 1 (fun _ => 0) 1 []) = true :=
  ⟨by decide, (spi_transaction_chip_select (fun h => h.length) 0x05 0 1 (fun _ => 0) 1
    []).2.2.1 { pwen := false, cs := true }⟩

end Meterfs

/-! # Properties of the object registry -/

namespace Jffs2
open GapTree

/-! ## The structural invariant is kept by every tree operation -/

theorem valid_nil (lo hi : Nat) : Valid lo hi nil ↔ lo ≤ hi := Iff.rfl

theorem valid_node (c : Color) (lo hi : Nat) (l : GapTree) (o : jffs2_object_t)
    (r : GapTree) :
    Valid lo hi (node c l o r)
      ↔ lo ≤ o.id ∧ o.id < hi ∧ Valid lo o.id l ∧ Valid (o.id + 1) hi r
        ∧ o.lmaxgap = gap_of lo o.id l ∧ o.rmaxgap = gap_of (o.id + 1) hi r := Iff.rfl

theorem valid_le {lo hi : Nat} {t : GapTree} (h : Valid lo hi t) : lo ≤ hi := by
  cases t with
  | nil => exact h
  | node c l o r =>
    simp only [valid_node] at h
    omega

theorem valid_augment (c : Color) (lo hi : Nat) (l : GapTree) (o : jffs2_object_t)
    (r : GapTree) :
    Valid lo hi (augment c lo hi l o r)
      ↔ lo ≤ o.id ∧ o.id < hi ∧ Valid lo o.id l ∧ Valid (o.id + 1) hi r := by
  simp [augment, valid_node]

theorem valid_recolor (c c' : Color) (lo hi : Nat) (l : GapTree) (o : jffs2_object_t)
    (r : GapTree) : Valid lo hi (node c l o r) ↔ Valid lo hi (node c' l o r) := by
  simp [valid_node]

theorem valid_paint (c : Color) (lo hi : Nat) (t : GapTree) :
    Valid lo hi (paint c t) ↔ Valid lo hi t := by
  cases t <;> simp [paint, valid_node, valid_nil]

theorem valid_fix_left (lo hi : Nat) (l : GapTree) (v : jffs2_object_t) (r : GapTree)
    (hl : Valid lo v.id l) (hr : Valid (v.id + 1) hi r) (h1 : lo ≤ v.id) (h2 : v.id < hi) :
    Valid lo hi (fix_left lo hi l v r) := by
  unfold fix_left
  split <;> simp_all [valid_augment, valid_node] <;> omega

theorem valid_fix_right (lo hi : Nat) (l : GapTree) (v : jffs2_object_t) (r : GapTree)
    (hl : Valid lo v.id l) (hr : Valid (v.id + 1) hi r) (h1 : lo ≤ v.id) (h2 : v.id < hi) :
    Valid lo hi (fix_right lo hi l v r) := by
  unfold fix_right
  split <;> simp_all [valid_augment, valid_node] <;> omega

theorem valid_ins (x : jffs2_object_t) (lo hi : Nat) (t : GapTree) (h : Valid lo hi t)
    (h1 : lo ≤ x.id) (h2 : x.id < hi) : Valid lo hi (ins x lo hi t) := by
  induction t generalizing lo hi with
  | nil =>
    simp only [ins, valid_augment, valid_nil]
    omega
  | node c l y r ihl ihr =>
    have hv := h
    simp only [valid_node] at hv
    obtain ⟨hy1, hy2, hl, hr, -, -⟩ := hv
    unfold ins
    split
    · have := ihl lo y.id hl h1 (by assumption)
      cases c
      · simp only [valid_augment]; exact ⟨hy1, hy2, this, hr⟩
      · exact valid_fix_left lo hi _ y r this hr hy1 hy2
    · split
      · have := ihr (y.id + 1) hi hr (by omega) h2
        cases c
        · simp only [valid_augment]; exact ⟨hy1, hy2, hl, this⟩
        · exact valid_fix_right lo hi l y _ hl this hy1 hy2
      · exact h

theorem valid_insert (x : jffs2_object_t) (lo hi : Nat) (t : GapTree) (h : Valid lo hi t)
    (h1 : lo ≤ x.id) (h2 : x.id < hi) : Valid lo hi (GapTree.insert lo hi x t) := by
  unfold GapTree.insert
  rw [valid_paint]
  exact valid_ins x lo hi t h h1 h2

end Jffs2

namespace Jffs2
open GapTree

theorem valid_fix_del_left (lo hi : Nat) (l : GapTree) (v : jffs2_object_t) (r : GapTree)
    (hl : Valid lo v.id l) (hr : Valid (v.id + 1) hi r) (h1 : lo ≤ v.id) (h2 : v.id < hi) :
    Valid lo hi (fix_del_left lo hi l v r) := by
  unfold fix_del_left
  split
  · rw [valid_augment]
    exact ⟨h1, h2, (valid_recolor _ _ _ _ _ _ _).mp hl, hr⟩
  · split
    · exact valid_fix_right lo hi l v _ hl ((valid_recolor _ _ _ _ _ _ _).mp hr) h1 h2
    · simp only [valid_node] at hr
      obtain ⟨hz1, hz2, ⟨hy1, hy2, ha, hb, -, -⟩, hc, -, -⟩ := hr
      rw [valid_augment, valid_augment]
      refine ⟨by omega, by omega, ⟨h1, by omega, hl, ha⟩, ?_⟩
      exact valid_fix_right _ _ _ _ _ hb ((valid_paint _ _ _ _).mpr hc) (by omega) hz2
    · rw [valid_augment]
      exact ⟨h1, h2, hl, hr⟩

theorem valid_fix_del_right (lo hi : Nat) (l : GapTree) (v : jffs2_object_t) (r : GapTree)
    (hl : Valid lo v.id l) (hr : Valid (v.id + 1) hi r) (h1 : lo ≤ v.id) (h2 : v.id < hi) :
    Valid lo hi (fix_del_right lo hi l v r) := by
  unfold fix_del_right
  split
  · rw [valid_augment]
    exact ⟨h1, h2, hl, (valid_recolor _ _ _ _ _ _ _).mp hr⟩
  · split
    · exact valid_fix_left lo hi _ v r ((valid_recolor _ _ _ _ _ _ _).mp hl) hr h1 h2
    · simp only [valid_node] at hl
      obtain ⟨hx1, hx2, ha, ⟨hy1, hy2, hb, hc, -, -⟩, -, -⟩ := hl
      rw [valid_augment, valid_augment]
      refine ⟨by omega, by omega, ?_, by omega, h2, hc, hr⟩
      exact valid_fix_left _ _ _ _ _ ((valid_paint _ _ _ _).mpr ha) hb hx1 (by omega)
    · rw [valid_augment]
      exact ⟨h1, h2, hl, hr⟩

theorem valid_widen (lo hi hi' : Nat) (t : GapTree) (h : Valid lo hi t) (hh : hi ≤ hi') :
    Valid lo hi' (widen lo hi' t) := by
  induction t generalizing lo with
  | nil =>
    simp only [widen, valid_nil] at h ⊢
    omega
  | node c l o r _ ihr =>
    simp only [valid_node] at h
    obtain ⟨h1, h2, hl, hr, -, -⟩ := h
    simp only [widen, valid_augment]
    exact ⟨h1, by omega, hl, ihr _ hr⟩

theorem valid_split_min (lo hi : Nat) (t : GapTree) (h : Valid lo hi t)
    (m : jffs2_object_t) (t' : GapTree) (hs : split_min hi t = some (m, t')) :
    lo ≤ m.id ∧ m.id < hi ∧ Valid (m.id + 1) hi t' := by
  induction t generalizing hi m t' with
  | nil => simp [split_min] at hs
  | node c l x r ihl _ =>
    simp only [valid_node] at h
    obtain ⟨h1, h2, hl, hr, -, -⟩ := h
    simp only [split_min] at hs
    split at hs
    · simp only [Option.some.injEq, Prod.mk.injEq] at hs
      obtain ⟨rfl, rfl⟩ := hs
      exact ⟨h1, h2, hr⟩
    · rename_i m' l' hm
      simp only [Option.some.injEq, Prod.mk.injEq] at hs
      obtain ⟨rfl, rfl⟩ := hs
      obtain ⟨g1, g2, g3⟩ := ihl x.id hl m' l' hm
      refine ⟨g1, by omega, ?_⟩
      split
      · exact valid_fix_del_left _ _ _ _ _ g3 hr (by omega) h2
      · rw [valid_augment]
        exact ⟨by omega, h2, g3, hr⟩

theorem valid_del (k lo hi : Nat) (t : GapTree) (h : Valid lo hi t) :
    Valid lo hi (del k lo hi t) := by
  induction t generalizing lo hi with
  | nil => exact h
  | node c l y r ihl ihr =>
    have hv := h
    simp only [valid_node] at hv
    obtain ⟨h1, h2, hl, hr, -, -⟩ := hv
    unfold del
    split
    · split
      · exact valid_fix_del_left _ _ _ _ _ (ihl _ _ hl) hr h1 h2
      · rw [valid_augment]
        exact ⟨h1, h2, ihl _ _ hl, hr⟩
    · split
      · split
        · exact valid_fix_del_right _ _ _ _ _ hl (ihr _ _ hr) h1 h2
        · rw [valid_augment]
          exact ⟨h1, h2, hl, ihr _ _ hr⟩
      · split
        · exact valid_widen lo y.id hi l hl (by omega)
        · rename_i m r' hm
          obtain ⟨g1, g2, g3⟩ := valid_split_min _ _ _ hr m r' hm
          have hw := valid_widen lo y.id m.id l hl (by omega)
          split
          · exact valid_fix_del_right _ _ _ _ _ hw g3 (by omega) g2
          · rw [valid_augment]
            exact ⟨by omega, g2, hw, g3⟩

theorem valid_remove (k lo hi : Nat) (t : GapTree) (h : Valid lo hi t) :
    Valid lo hi (remove lo hi k t) := by
  unfold remove
  rw [valid_paint]
  exact valid_del k lo hi t h

theorem gap_of_update (k : Nat) (f : jffs2_object_t → jffs2_object_t)
    (hf : ∀ o, (f o).lmaxgap = o.lmaxgap ∧ (f o).rmaxgap = o.rmaxgap)
    (lo hi : Nat) (t : GapTree) : gap_of lo hi (update k f t) = gap_of lo hi t := by
  cases t with
  | nil => rfl
  | node c l o r =>
    simp only [update]
    split
    · rfl
    · split
      · rfl
      · simp [gap_of, hf]

theorem valid_update (k : Nat) (f : jffs2_object_t → jffs2_object_t)
    (hid : ∀ o, (f o).id = o.id)
    (hf : ∀ o, (f o).lmaxgap = o.lmaxgap ∧ (f o).rmaxgap = o.rmaxgap)
    (lo hi : Nat) (t : GapTree) (h : Valid lo hi t) : Valid lo hi (update k f t) := by
  induction t generalizing lo hi with
  | nil => exact h
  | node c l o r ihl ihr =>
    simp only [valid_node] at h
    obtain ⟨h1, h2, hl, hr, g1, g2⟩ := h
    simp only [update]
    split
    · rw [valid_node, gap_of_update k f hf]
      exact ⟨h1, h2, ihl _ _ hl, hr, g1, g2⟩
    · split
      · rw [valid_node, gap_of_update k f hf]
        exact ⟨h1, h2, hl, ihr _ _ hr, g1, g2⟩
      · rw [valid_node, hid, (hf o).1, (hf o).2]
        exact ⟨h1, h2, hl, hr, g1, g2⟩

end Jffs2

namespace Jffs2
open GapTree

/-! ## What a valid index says about used and unused ids -/

theorem lookup_bounds {lo hi j : Nat} {t : GapTree} {o : jffs2_object_t}
    (h : Valid lo hi t) (hj : lookup j t = some o) : lo ≤ j ∧ j < hi ∧ o.id = j := by
  induction t generalizing lo hi with
  | nil => simp [lookup] at hj
  | node c l y r ihl ihr =>
    simp only [valid_node] at h
    obtain ⟨h1, h2, hl, hr, -, -⟩ := h
    simp only [lookup] at hj
    split at hj
    · have := ihl hl hj
      omega
    · split at hj
      · have := ihr hr hj
        omega
      · simp only [Option.some.injEq] at hj
        subst hj
        omega

theorem contains_bounds {lo hi j : Nat} {t : GapTree}
    (h : Valid lo hi t) (hj : contains j t = true) : lo ≤ j ∧ j < hi := by
  unfold contains at hj
  obtain ⟨o, ho⟩ := Option.isSome_iff_exists.mp hj
  have := lookup_bounds h ho
  omega

theorem contains_nil (j : Nat) : contains j nil = false := rfl

theorem contains_node (c : Color) (l : GapTree) (o : jffs2_object_t) (r : GapTree) (j : Nat) :
    contains j (node c l o r)
      = if j < o.id then contains j l else if o.id < j then contains j r else true := by
  unfold contains
  simp only [lookup]
  split
  · rfl
  · split <;> rfl

theorem longest_congr {used used' : Nat → Bool} {lo hi n : Nat}
    (h : ∀ j, lo ≤ j → j < hi → used j = used' j) (hn : LongestFreeRun used lo hi n) :
    LongestFreeRun used' lo hi n := by
  obtain ⟨⟨s, hs1, hs2, hs3⟩, hmax⟩ := hn
  refine ⟨⟨s, hs1, hs2, fun j hj1 hj2 => ?_⟩, fun s' n' h1 h2 h3 => hmax s' n' h1 h2 ?_⟩
  · rw [← h j (by omega) (by omega)]
    exact hs3 j hj1 hj2
  · intro j hj1 hj2
    rw [h j (by omega) (by omega)]
    exact h3 j hj1 hj2

theorem longest_unique {used : Nat → Bool} {lo hi a b : Nat}
    (ha : LongestFreeRun used lo hi a) (hb : LongestFreeRun used lo hi b) : a = b := by
  obtain ⟨⟨s, hs1, hs2, hs3⟩, hmax⟩ := ha
  obtain ⟨⟨s', hs1', hs2', hs3'⟩, hmax'⟩ := hb
  have := hmax s' b hs1' hs2' hs3'
  have := hmax' s a hs1 hs2 hs3
  omega

theorem longest_empty (used : Nat → Bool) (lo hi : Nat) (h : lo ≤ hi)
    (hfree : ∀ j, lo ≤ j → j < hi → used j = false) :
    LongestFreeRun used lo hi (hi - lo) :=
  ⟨⟨lo, le_refl _, by omega, fun j h1 h2 => hfree j h1 (by omega)⟩,
    fun s n h1 h2 _ => by omega⟩

theorem longest_join (used : Nat → Bool) (lo k hi a b : Nat) (hk : used k = true) (ha : LongestFreeRun used lo k a)
    (hb : LongestFreeRun used (k + 1) hi b) : LongestFreeRun used lo hi (max a b) := by
  obtain ⟨⟨s, hs1, hs2, hs3⟩, hmax⟩ := ha
  obtain ⟨⟨s', hs1', hs2', hs3'⟩, hmax'⟩ := hb
  constructor
  · rcases Nat.le_total a b with hab | hab
    · rw [Nat.max_eq_right hab]
      exact ⟨s', by omega, hs2', hs3'⟩
    · rw [Nat.max_eq_left hab]
      exact ⟨s, hs1, by omega, hs3⟩
  · intro t n ht1 ht2 hfree
    by_cases hn : n = 0
    · omega
    · by_cases hlt : t + n ≤ k
      · have := hmax t n ht1 hlt hfree
        omega
      · by_cases hgt : k < t
        · have := hmax' t n (by omega) ht2 hfree
          omega
        · have := hfree k (by omega) (by omega)
          rw [hk] at this
          exact absurd this (by decide)

theorem gap_of_longest {lo hi : Nat} {t : GapTree} (h : Valid lo hi t) :
    LongestFreeRun (fun j => contains j t) lo hi (gap_of lo hi t) := by
  induction t generalizing lo hi with
  | nil => exact longest_empty _ lo hi h (fun _ _ _ => rfl)
  | node c l o r ihl ihr =>
    simp only [valid_node] at h
    obtain ⟨h1, h2, hl, hr, g1, g2⟩ := h
    simp only [gap_of, g1, g2]
    apply longest_join _ lo o.id hi
    · simp [contains_node]
    · refine longest_congr (fun j hj1 hj2 => ?_) (ihl hl)
      simp [contains_node, hj2]
    · refine longest_congr (fun j hj1 hj2 => ?_) (ihr hr)
      have : ¬ j < o.id := by omega
      have : o.id < j := by omega
      simp [contains_node, *]

theorem gap_zero_full {used : Nat → Bool} {lo hi : Nat}
    (h : LongestFreeRun used lo hi 0) : ∀ j, lo ≤ j → j < hi → used j = true := by
  intro j h1 h2
  by_contra hj
  have := h.2 j 1 h1 (by omega) (fun i hi1 hi2 => by
    have : i = j := by omega
    subst this
    simpa using hj)
  omega

theorem gap_pos_free {used : Nat → Bool} {lo hi n : Nat}
    (h : LongestFreeRun used lo hi n) (hn : 0 < n) : ∃ j, lo ≤ j ∧ j < hi ∧ used j = false := by
  obtain ⟨⟨s, hs1, hs2, hs3⟩, -⟩ := h
  exact ⟨s, hs1, by omega, hs3 s (le_refl _) (by omega)⟩

end Jffs2

namespace Jffs2
open GapTree

theorem find_free_spec {lo hi : Nat} {t : GapTree} (h : Valid lo hi t) :
    (∀ i, find_free lo hi t = some i → SmallestFree (fun j => contains j t) lo hi i)
      ∧ (find_free lo hi t = none → ∀ j, lo ≤ j → j < hi → contains j t = true) := by
  induction t generalizing lo hi with
  | nil =>
    simp only [find_free, valid_nil] at h ⊢
    split
    · refine ⟨fun i hi' => ?_, fun hn => by simp at hn⟩
      simp only [Option.some.injEq] at hi'
      subst hi'
      exact ⟨le_refl _, by omega, rfl, fun j _ _ => by omega⟩
    · exact ⟨fun i hi' => by simp at hi', fun _ j _ _ => by omega⟩
  | node c l o r ihl ihr =>
    simp only [valid_node] at h
    obtain ⟨h1, h2, hl, hr, g1, g2⟩ := h
    have hL := gap_of_longest hl
    have hR := gap_of_longest hr
    rw [← g1] at hL
    rw [← g2] at hR
    have cl : ∀ j, j < o.id → contains j (node c l o r) = contains j l := by
      intro j hj
      simp [contains_node, hj]
    have cr : ∀ j, o.id < j → contains j (node c l o r) = contains j r := by
      intro j hj
      have : ¬ j < o.id := by omega
      simp [contains_node, hj, this]
    have ck : contains o.id (node c l o r) = true := by simp [contains_node]
    simp only [find_free]
    split
    · rename_i hpos
      obtain ⟨f, hf1, hf2, hf3⟩ := gap_pos_free hL hpos
      refine ⟨fun i hi' => ?_, fun hn => ?_⟩
      · obtain ⟨a1, a2, a3, a4⟩ := (ihl hl).1 i hi'
        exact ⟨a1, by omega, (cl i a2).trans a3,
          fun j hj1 hj2 => (cl j (by omega)).trans (a4 j hj1 hj2)⟩
      · have := (ihl hl).2 hn f hf1 hf2
        rw [hf3] at this
        exact absurd this (by decide)
    · rename_i hzero
      have hzero' : o.lmaxgap = 0 := by omega
      rw [hzero'] at hL
      have hfull := gap_zero_full hL
      split
      · rename_i hpos
        obtain ⟨f, hf1, hf2, hf3⟩ := gap_pos_free hR hpos
        refine ⟨fun i hi' => ?_, fun hn => ?_⟩
        · obtain ⟨a1, a2, a3, a4⟩ := (ihr hr).1 i hi'
          refine ⟨by omega, a2, (cr i (by omega)).trans a3, fun j hj1 hj2 => ?_⟩
          show contains j (node c l o r) = true
          rcases Nat.lt_trichotomy j o.id with hlt | heq | hgt
          · rw [cl j hlt]
            exact hfull j hj1 hlt
          · rw [heq]
            exact ck
          · rw [cr j hgt]
            exact a4 j (by omega) hj2
        · have := (ihr hr).2 hn f hf1 hf2
          rw [hf3] at this
          exact absurd this (by decide)
      · rename_i hzeroR
        have hzeroR' : o.rmaxgap = 0 := by omega
        rw [hzeroR'] at hR
        have hfullR := gap_zero_full hR
        refine ⟨fun i hi' => by simp at hi', fun _ j hj1 hj2 => ?_⟩
        show contains j (node c l o r) = true
        rcases Nat.lt_trichotomy j o.id with hlt | heq | hgt
        · rw [cl j hlt]
          exact hfull j hj1 hlt
        · rw [heq]
          exact ck
        · rw [cr j hgt]
          exact hfullR j (by omega) hj2

theorem first_free_spec (used : Nat → Bool) (s n : Nat) :
    (∀ i, first_free used s n = some i → SmallestFree used s (s + n) i)
      ∧ (first_free used s n = none → ∀ j, s ≤ j → j < s + n → used j = true) := by
  induction n generalizing s with
  | zero =>
    exact ⟨fun i hi => by simp [first_free] at hi, fun _ j _ _ => by omega⟩
  | succ n ih =>
    simp only [first_free]
    by_cases hs : used s = true
    · rw [if_pos hs]
      refine ⟨fun i hi => ?_, fun hn j hj1 hj2 => ?_⟩
      · obtain ⟨a1, a2, a3, a4⟩ := (ih (s + 1)).1 i hi
        refine ⟨by omega, by omega, a3, fun j hj1 hj2 => ?_⟩
        rcases Nat.eq_or_lt_of_le hj1 with heq | hlt
        · rw [← heq]
          exact hs
        · exact a4 j (by omega) hj2
      · rcases Nat.eq_or_lt_of_le hj1 with heq | hlt
        · rw [← heq]
          exact hs
        · exact (ih (s + 1)).2 hn j (by omega) (by omega)
    · rw [if_neg hs]
      refine ⟨fun i hi => ?_, fun hn => by simp at hn⟩
      simp only [Option.some.injEq] at hi
      subst hi
      exact ⟨le_refl _, by omega, by simpa using hs, fun j _ _ => by omega⟩

theorem smallest_free_unique {used : Nat → Bool} {lo hi i j : Nat}
    (hi' : SmallestFree used lo hi i) (hj : SmallestFree used lo hi j) : i = j := by
  obtain ⟨a1, a2, a3, a4⟩ := hi'
  obtain ⟨b1, b2, b3, b4⟩ := hj
  rcases Nat.lt_trichotomy i j with h | h | h
  · have := b4 i a1 h
    rw [a3] at this
    exact absurd this (by decide)
  · exact h
  · have := a4 j b1 h
    rw [b3] at this
    exact absurd this (by decide)

theorem find_free_eq_scan {limit : Nat} {t : GapTree} (h : Valid 0 limit t) :
    find_free 0 limit t = first_free (fun j => contains j t) 0 limit := by
  have hf := find_free_spec h
  have hs := first_free_spec (fun j => contains j t) 0 limit
  simp only [Nat.zero_add] at hs
  cases hA : find_free 0 limit t with
  | none =>
    cases hB : first_free (fun j => contains j t) 0 limit with
    | none => rfl
    | some b =>
      obtain ⟨b1, b2, b3, -⟩ := hs.1 b hB
      have := hf.2 hA b b1 b2
      simp only at b3
      rw [b3] at this
      exact absurd this (by decide)
  | some a =>
    cases hB : first_free (fun j => contains j t) 0 limit with
    | none =>
      obtain ⟨a1, a2, a3, -⟩ := hf.1 a hA
      have := hs.2 hB a a1 a2
      simp only at a3 this
      rw [a3] at this
      exact absurd this (by decide)
    | some b =>
      rw [smallest_free_unique (hf.1 a hA) (hs.1 b hB)]

end Jffs2

namespace Jffs2
open GapTree

theorem free_run_at_spec (used : Nat → Bool) (s n : Nat) :
    free_run_at used s n ≤ n
      ∧ (∀ j, s ≤ j → j < s + free_run_at used s n → used j = false)
      ∧ (free_run_at used s n < n → used (s + free_run_at used s n) = true) := by
  induction n generalizing s with
  | zero => exact ⟨le_refl _, fun j _ _ => by simp [free_run_at] at *; omega, fun h => by
      simp [free_run_at] at h⟩
  | succ n ih =>
    simp only [free_run_at]
    by_cases hs : used s = true
    · rw [if_pos hs]
      exact ⟨by omega, fun j _ _ => by omega, fun _ => hs⟩
    · rw [if_neg hs]
      obtain ⟨a1, a2, a3⟩ := ih (s + 1)
      refine ⟨by omega, fun j hj1 hj2 => ?_, fun h => ?_⟩
      · rcases Nat.eq_or_lt_of_le hj1 with heq | hlt
        · rw [← heq]
          simpa using hs
        · exact a2 j (by omega) (by omega)
      · have := a3 (by omega)
        rw [show s + (free_run_at used (s + 1) n + 1) = s + 1 + free_run_at used (s + 1) n by
          omega]
        exact this

theorem longest_free_run_spec (used : Nat → Bool) (s n : Nat) :
    LongestFreeRun used s (s + n) (longest_free_run used s n) := by
  induction n generalizing s with
  | zero =>
    exact ⟨⟨s, le_refl _, by simp [longest_free_run], fun j _ _ => by
      simp [longest_free_run] at *; omega⟩, fun t m _ _ _ => by simp [longest_free_run]; omega⟩
  | succ n ih =>
    obtain ⟨f1, f2, f3⟩ := free_run_at_spec used s (n + 1)
    obtain ⟨⟨t, ht1, ht2, ht3⟩, hmax⟩ := ih (s + 1)
    simp only [longest_free_run]
    constructor
    · rcases Nat.le_total (free_run_at used s (n + 1)) (longest_free_run used (s + 1) n)
        with hab | hab
      · rw [Nat.max_eq_right hab]
        exact ⟨t, by omega, by omega, ht3⟩
      · rw [Nat.max_eq_left hab]
        exact ⟨s, le_refl _, by omega, f2⟩
    · intro t' m h1 h2 hfree
      rcases Nat.eq_or_lt_of_le h1 with heq | hlt
      · subst heq
        by_contra hcon
        have hlt : free_run_at used s (n + 1) < m := by omega
        have := f3 (by omega)
        rw [hfree _ (by omega) (by omega)] at this
        exact absurd this (by decide)
      · have := hmax t' m (by omega) (by omega) hfree
        omega

theorem longest_free_run_eq {used : Nat → Bool} {lo hi len : Nat} (hle : lo ≤ hi)
    (h : LongestFreeRun used lo hi len) : len = longest_free_run used lo (hi - lo) := by
  have := longest_free_run_spec used lo (hi - lo)
  rw [Nat.add_sub_cancel' hle] at this
  exact longest_unique h this

theorem gaps_exact_of_valid {used : Nat → Bool} {lo hi : Nat} {t : GapTree}
    (h : Valid lo hi t) (hu : ∀ j, lo ≤ j → j < hi → used j = contains j t) :
    GapsExact used lo hi t := by
  induction t generalizing lo hi with
  | nil => trivial
  | node c l o r ihl ihr =>
    have hv := h
    simp only [valid_node] at hv
    obtain ⟨h1, h2, hl, hr, g1, g2⟩ := hv
    have ul : ∀ j, lo ≤ j → j < o.id → used j = contains j l := by
      intro j hj1 hj2
      rw [hu j hj1 (by omega)]
      simp [contains_node, hj2]
    have ur : ∀ j, o.id + 1 ≤ j → j < hi → used j = contains j r := by
      intro j hj1 hj2
      rw [hu j (by omega) hj2]
      have : ¬ j < o.id := by omega
      have : o.id < j := by omega
      simp [contains_node, *]
    have hL : LongestFreeRun used lo o.id o.lmaxgap := by
      rw [g1]
      exact longest_congr (fun j a b => (ul j a b).symm) (gap_of_longest hl)
    have hR : LongestFreeRun used (o.id + 1) hi o.rmaxgap := by
      rw [g2]
      exact longest_congr (fun j a b => (ur j a b).symm) (gap_of_longest hr)
    exact ⟨hL, longest_free_run_eq h1 hL, hR, longest_free_run_eq (by omega) hR,
      ihl hl ul, ihr hr ur⟩

end Jffs2

namespace Jffs2
open GapTree

/-! ## Contents of the index: the objects without their gap fields -/

theorem strip_id (o : jffs2_object_t) : (strip o).id = o.id := rfl

theorem entries_nil : entries nil = [] := rfl

theorem entries_node (c : Color) (l : GapTree) (o : jffs2_object_t) (r : GapTree) :
    entries (node c l o r) = entries l ++ strip o :: entries r := by
  simp [entries, objects]

theorem entries_augment (c : Color) (lo hi : Nat) (l : GapTree) (o : jffs2_object_t)
    (r : GapTree) : entries (augment c lo hi l o r) = entries l ++ strip o :: entries r := by
  simp [augment, entries, objects, strip]

theorem entries_paint (c : Color) (t : GapTree) : entries (paint c t) = entries t := by
  cases t <;> simp [paint, entries, objects]

theorem entries_fix_left (lo hi : Nat) (l : GapTree) (v : jffs2_object_t) (r : GapTree) :
    entries (fix_left lo hi l v r) = entries l ++ strip v :: entries r := by
  unfold fix_left
  split <;> simp [entries_augment, entries_node]

theorem entries_fix_right (lo hi : Nat) (l : GapTree) (v : jffs2_object_t) (r : GapTree) :
    entries (fix_right lo hi l v r) = entries l ++ strip v :: entries r := by
  unfold fix_right
  split <;> simp [entries_augment, entries_node]

theorem entries_fix_del_left (lo hi : Nat) (l : GapTree) (v : jffs2_object_t) (r : GapTree) :
    entries (fix_del_left lo hi l v r) = entries l ++ strip v :: entries r := by
  unfold fix_del_left
  split
  · simp [entries_augment, entries_node]
  · split <;>
      simp [entries_augment, entries_node, entries_fix_right, entries_paint]

theorem entries_fix_del_right (lo hi : Nat) (l : GapTree) (v : jffs2_object_t) (r : GapTree) :
    entries (fix_del_right lo hi l v r) = entries l ++ strip v :: entries r := by
  unfold fix_del_right
  split
  · simp [entries_augment, entries_node]
  · split <;>
      simp [entries_augment, entries_node, entries_fix_left, entries_paint]

theorem entries_widen (lo hi : Nat) (t : GapTree) : entries (widen lo hi t) = entries t := by
  induction t generalizing lo with
  | nil => rfl
  | node c l o r _ ihr => simp [widen, entries_augment, entries_node, ihr]

theorem entries_split_min (hi : Nat) (t : GapTree) (m : jffs2_object_t) (t' : GapTree)
    (hs : split_min hi t = some (m, t')) : entries t = strip m :: entries t' := by
  induction t generalizing hi m t' with
  | nil => simp [split_min] at hs
  | node c l x r ihl _ =>
    simp only [split_min] at hs
    split at hs
    · rename_i hnone
      simp only [Option.some.injEq, Prod.mk.injEq] at hs
      obtain ⟨rfl, rfl⟩ := hs
      cases l with
      | nil => simp [entries_node, entries_nil]
      | node c' l' x' r' =>
        simp only [split_min] at hnone
        split at hnone <;> simp at hnone
    · rename_i m' l' hm
      simp only [Option.some.injEq, Prod.mk.injEq] at hs
      obtain ⟨rfl, rfl⟩ := hs
      rw [entries_node, ihl _ _ _ hm]
      split <;> simp [entries_fix_del_left, entries_augment]

theorem entries_bounds {lo hi : Nat} {t : GapTree} (h : Valid lo hi t)
    {e : jffs2_object_t} (he : e ∈ entries t) : lo ≤ e.id ∧ e.id < hi := by
  induction t generalizing lo hi with
  | nil => simp [entries_nil] at he
  | node c l o r ihl ihr =>
    simp only [valid_node] at h
    obtain ⟨h1, h2, hl, hr, -, -⟩ := h
    simp only [entries_node, List.mem_append, List.mem_cons] at he
    rcases he with he | rfl | he
    · have := ihl hl he
      omega
    · rw [strip_id]
      omega
    · have := ihr hr he
      omega

theorem payload_iff {lo hi : Nat} {t : GapTree} (h : Valid lo hi t) (j : Nat)
    (e : jffs2_object_t) : payload j t = some e ↔ e ∈ entries t ∧ e.id = j := by
  induction t generalizing lo hi with
  | nil => simp [payload, lookup, entries_nil]
  | node c l o r ihl ihr =>
    simp only [valid_node] at h
    obtain ⟨h1, h2, hl, hr, -, -⟩ := h
    have bl := fun (he : e ∈ entries l) => entries_bounds hl he
    have br := fun (he : e ∈ entries r) => entries_bounds hr he
    have ihl' := ihl hl
    have ihr' := ihr hr
    simp only [payload] at ihl' ihr' ⊢
    simp only [lookup, entries_node, List.mem_append, List.mem_cons]
    split
    · rw [ihl']
      constructor
      · rintro ⟨a, b⟩
        exact ⟨Or.inl a, b⟩
      · rintro ⟨a | rfl | a, b⟩
        · exact ⟨a, b⟩
        · rw [strip_id] at b
          omega
        · have := br a
          omega
    · split
      · rw [ihr']
        constructor
        · rintro ⟨a, b⟩
          exact ⟨Or.inr (Or.inr a), b⟩
        · rintro ⟨a | rfl | a, b⟩
          · have := bl a
            omega
          · rw [strip_id] at b
            omega
          · exact ⟨a, b⟩
      · simp only [Option.map_some', Option.some.injEq]
        constructor
        · rintro rfl
          exact ⟨Or.inr (Or.inl rfl), by rw [strip_id]; omega⟩
        · rintro ⟨a | rfl | a, b⟩
          · have := bl a
            omega
          · rfl
          · have := br a
            omega

end Jffs2

namespace Jffs2
open GapTree

theorem mem_entries_ins (x : jffs2_object_t) (lo hi : Nat) (t : GapTree)
    (hx : contains x.id t = false) (e : jffs2_object_t) :
    e ∈ entries (ins x lo hi t) ↔ e = strip x ∨ e ∈ entries t := by
  induction t generalizing lo hi with
  | nil => simp [ins, entries_augment, entries_nil]
  | node c l y r ihl ihr =>
    rw [contains_node] at hx
    unfold ins
    split
    · rename_i hlt
      rw [if_pos hlt] at hx
      cases c <;>
        simp only [entries_augment, entries_fix_left, entries_node, List.mem_append,
          List.mem_cons, ihl _ _ hx] <;> tauto
    · rename_i hnlt
      rw [if_neg hnlt] at hx
      split
      · rename_i hgt
        rw [if_pos hgt] at hx
        cases c <;>
          simp only [entries_augment, entries_fix_right, entries_node, List.mem_append,
            List.mem_cons, ihr _ _ hx] <;> tauto
      · rename_i hngt
        rw [if_neg hngt] at hx
        exact absurd hx (by decide)

theorem mem_entries_insert (x : jffs2_object_t) (lo hi : Nat) (t : GapTree)
    (hx : contains x.id t = false) (e : jffs2_object_t) :
    e ∈ entries (GapTree.insert lo hi x t) ↔ e = strip x ∨ e ∈ entries t := by
  unfold GapTree.insert
  rw [entries_paint]
  exact mem_entries_ins x lo hi t hx e

theorem mem_entries_del (k lo hi : Nat) (t : GapTree) (h : Valid lo hi t)
    (e : jffs2_object_t) :
    e ∈ entries (del k lo hi t) ↔ e ∈ entries t ∧ e.id ≠ k := by
  induction t generalizing lo hi with
  | nil => simp [del, entries_nil]
  | node c l y r ihl ihr =>
    simp only [valid_node] at h
    obtain ⟨h1, h2, hl, hr, -, -⟩ := h
    have bl := fun (he : e ∈ entries l) => entries_bounds hl he
    have br := fun (he : e ∈ entries r) => entries_bounds hr he
    have sy : e = strip y → e.id = y.id := fun he => by rw [he, strip_id]
    unfold del
    split
    · have key : e ∈ entries (del k lo y.id l) ++ strip y :: entries r
          ↔ e ∈ entries (node c l y r) ∧ e.id ≠ k := by
        simp only [entries_node, List.mem_append, List.mem_cons, ihl _ _ hl]
        constructor
        · rintro (⟨a, b⟩ | a | a)
          · exact ⟨Or.inl a, b⟩
          · exact ⟨Or.inr (Or.inl a), by have := sy a; omega⟩
          · exact ⟨Or.inr (Or.inr a), by have := br a; omega⟩
        · rintro ⟨a | a | a, b⟩
          · exact Or.inl ⟨a, b⟩
          · exact Or.inr (Or.inl a)
          · exact Or.inr (Or.inr a)
      split
      · rw [entries_fix_del_left]
        exact key
      · rw [entries_augment]
        exact key
    · split
      · have key : e ∈ entries l ++ strip y :: entries (del k (y.id + 1) hi r)
            ↔ e ∈ entries (node c l y r) ∧ e.id ≠ k := by
          simp only [entries_node, List.mem_append, List.mem_cons, ihr _ _ hr]
          constructor
          · rintro (a | a | ⟨a, b⟩)
            · exact ⟨Or.inl a, by have := bl a; omega⟩
            · exact ⟨Or.inr (Or.inl a), by have := sy a; omega⟩
            · exact ⟨Or.inr (Or.inr a), b⟩
          · rintro ⟨a | a | a, b⟩
            · exact Or.inl a
            · exact Or.inr (Or.inl a)
            · exact Or.inr (Or.inr ⟨a, b⟩)
        split
        · rw [entries_fix_del_right]
          exact key
        · rw [entries_augment]
          exact key
      · have hk : y.id = k := by omega
        split
        · rename_i hnone
          have hr0 : entries r = [] := by
            cases r with
            | nil => rfl
            | node c' l' x' r' =>
              simp only [split_min] at hnone
              split at hnone <;> simp at hnone
          simp only [entries_widen, entries_node, hr0, List.mem_append, List.mem_cons,
            List.not_mem_nil, or_false]
          constructor
          · intro a
            exact ⟨Or.inl a, by have := bl a; omega⟩
          · rintro ⟨a | a, b⟩
            · exact a
            · have := sy a
              omega
        · rename_i m r' hm
          have hr1 := entries_split_min _ _ _ _ hm
          have key : e ∈ entries l ++ strip m :: entries r'
              ↔ e ∈ entries (node c l y r) ∧ e.id ≠ k := by
            simp only [entries_node, hr1, List.mem_append, List.mem_cons]
            have br' : e = strip m ∨ e ∈ entries r' → y.id + 1 ≤ e.id := by
              intro a
              have : e ∈ entries r := by
                rw [hr1]
                simpa using a
              exact (br this).1
            constructor
            · rintro (a | a | a)
              · exact ⟨Or.inl a, by have := bl a; omega⟩
              · exact ⟨Or.inr (Or.inr (Or.inl a)), by have := br' (Or.inl a); omega⟩
              · exact ⟨Or.inr (Or.inr (Or.inr a)), by have := br' (Or.inr a); omega⟩
            · rintro ⟨a | a | a | a, b⟩
              · exact Or.inl a
              · have := sy a
                omega
              · exact Or.inr (Or.inl a)
              · exact Or.inr (Or.inr a)
          split
          · rw [entries_fix_del_right, entries_widen]
            exact key
          · rw [entries_augment, entries_widen]
            exact key

theorem mem_entries_remove (k lo hi : Nat) (t : GapTree) (h : Valid lo hi t)
    (e : jffs2_object_t) :
    e ∈ entries (remove lo hi k t) ↔ e ∈ entries t ∧ e.id ≠ k := by
  unfold remove
  rw [entries_paint]
  exact mem_entries_del k lo hi t h e

theorem contains_iff_payload (j : Nat) (t : GapTree) :
    contains j t = true ↔ ∃ e, payload j t = some e := by
  unfold contains payload
  cases lookup j t <;> simp

theorem payload_insert {lo hi : Nat} {t : GapTree} (h : Valid lo hi t)
    (x : jffs2_object_t) (h1 : lo ≤ x.id) (h2 : x.id < hi)
    (hx : contains x.id t = false) (j : Nat) :
    payload j (GapTree.insert lo hi x t)
      = if j = x.id then some (strip x) else payload j t := by
  have hv := valid_insert x lo hi t h h1 h2
  apply Option.ext
  intro e
  simp only [Option.mem_def]
  rw [payload_iff hv, mem_entries_insert x lo hi t hx]
  split
  · rename_i hj
    subst hj
    constructor
    · rintro ⟨rfl | a, b⟩
      · rfl
      · have : contains x.id t = true :=
          (contains_iff_payload _ _).mpr ⟨e, (payload_iff h _ _).mpr ⟨a, b⟩⟩
        rw [hx] at this
        exact absurd this (by decide)
    · intro a
      simp only [Option.some.injEq] at a
      subst a
      exact ⟨Or.inl rfl, rfl⟩
  · rename_i hj
    rw [payload_iff h]
    constructor
    · rintro ⟨rfl | a, b⟩
      · exact absurd b.symm hj
      · exact ⟨a, b⟩
    · rintro ⟨a, b⟩
      exact ⟨Or.inr a, b⟩

theorem payload_remove {lo hi : Nat} {t : GapTree} (h : Valid lo hi t) (k j : Nat) :
    payload j (remove lo hi k t) = if j = k then none else payload j t := by
  have hv := valid_remove k lo hi t h
  apply Option.ext
  intro e
  simp only [Option.mem_def]
  rw [payload_iff hv, mem_entries_remove k lo hi t h]
  split
  · rename_i hj
    subst hj
    constructor
    · rintro ⟨⟨_, b⟩, c⟩
      exact absurd c b
    · intro a
      simp at a
  · rename_i hj
    rw [payload_iff h]
    constructor
    · rintro ⟨⟨a, b⟩, c⟩
      exact ⟨a, c⟩
    · rintro ⟨a, b⟩
      exact ⟨⟨a, by omega⟩, b⟩

theorem lookup_update (k : Nat) (f : jffs2_object_t → jffs2_object_t)
    (hid : ∀ o, (f o).id = o.id) (j : Nat) (t : GapTree) :
    lookup j (update k f t) = if j = k then (lookup j t).map f else lookup j t := by
  induction t with
  | nil => simp [update, lookup]
  | node c l o r ihl ihr =>
    simp only [update]
    split_ifs with h1 h2 h3 h4 h5 <;> simp only [lookup, ihl, ihr, hid] <;>
      split_ifs <;> first | rfl | (exfalso; omega)

end Jffs2

namespace Jffs2
open GapTree

/-! ## The registry keeps its index valid -/

theorem new_object_id (id : Nat) (type : Int) : (new_object id type).id = id := rfl

theorem valid_object_create (limit : Nat) (type : Int) (mem : Bool) (r : Registry)
    (h : Valid 0 limit r.tree) : Valid 0 limit (object_create limit type mem r).1.tree := by
  unfold object_create
  split
  · split
    · exact h
    · rename_i id hid
      obtain ⟨-, h2, -, -⟩ := (find_free_spec h).1 id hid
      exact valid_insert _ 0 limit r.tree h (Nat.zero_le _) h2
  · exact h

theorem valid_object_get (limit : Nat) (id : Nat) (r : Registry)
    (h : Valid 0 limit r.tree) : Valid 0 limit (object_get id r).1.tree := by
  unfold object_get
  split
  · exact h
  · refine valid_update _ _ ?_ ?_ _ _ _ h <;> intro o <;> first | rfl | exact ⟨rfl, rfl⟩

theorem valid_erase (limit : Nat) (id : Nat) (r : Registry)
    (h : Valid 0 limit r.tree) : Valid 0 limit (erase limit id r).tree :=
  valid_remove id 0 limit r.tree h

theorem valid_object_put (limit : Nat) (id : Nat) (r : Registry)
    (h : Valid 0 limit r.tree) : Valid 0 limit (object_put limit id r).tree := by
  unfold object_put
  split
  · exact h
  · split
    · exact h
    · split
      · exact valid_erase limit id r h
      · refine valid_update _ _ ?_ ?_ _ _ _ h <;> intro o <;> first | rfl | exact ⟨rfl, rfl⟩

theorem valid_object_destroy (limit : Nat) (id : Nat) (r : Registry)
    (h : Valid 0 limit r.tree) : Valid 0 limit (object_destroy limit id r).tree := by
  unfold object_destroy
  split
  · exact h
  · split
    · exact valid_erase limit id r h
    · split <;> exact h

theorem valid_step (limit : Nat) (r : Registry) (c : Call) (h : Valid 0 limit r.tree) :
    Valid 0 limit (step limit r c).tree := by
  cases c with
  | create type mem => exact valid_object_create limit type mem r h
  | get id => exact valid_object_get limit id r h
  | put id => exact valid_object_put limit id r h
  | destroy id => exact valid_object_destroy limit id r h

theorem valid_foldl (limit : Nat) (calls : List Call) (r : Registry)
    (h : Valid 0 limit r.tree) : Valid 0 limit (calls.foldl (step limit) r).tree := by
  induction calls generalizing r with
  | nil => exact h
  | cons c cs ih => exact ih _ (valid_step limit r c h)

theorem valid_run (limit : Nat) (calls : List Call) : Valid 0 limit (run limit calls).tree :=
  valid_foldl limit calls object_init (Nat.zero_le _)

theorem lookup_none_iff_payload (j : Nat) (t : GapTree) :
    lookup j t = none ↔ payload j t = none := by
  unfold payload
  cases lookup j t <;> simp

theorem contains_false_iff (j : Nat) (t : GapTree) :
    contains j t = false ↔ lookup j t = none := by
  unfold contains
  cases lookup j t <;> simp

theorem create_id_eq_find_free (limit : Nat) (type : Int) (r : Registry)
    (h : Valid 0 limit r.tree) :
    (object_create limit type true r).2.map (·.id) = r.tree.find_free 0 limit := by
  unfold object_create
  simp only [if_true]
  split
  · rename_i hnone
    rw [hnone]
    rfl
  · rename_i id hid
    obtain ⟨-, h2, h3, -⟩ := (find_free_spec h).1 id hid
    have hp := payload_insert h (new_object id type) (Nat.zero_le _) h2 h3 id
    rw [if_pos (new_object_id id type).symm] at hp
    simp only [payload] at hp
    rw [hid]
    cases hl : lookup id (GapTree.insert 0 limit (new_object id type) r.tree) with
    | none => rw [hl] at hp; simp at hp
    | some o =>
      have hv := valid_insert (new_object id type) 0 limit r.tree h (Nat.zero_le _) h2
      have := (lookup_bounds hv hl).2.2
      simp [this]

end Jffs2

namespace Jffs2
open GapTree

theorem gap_of_le {lo hi : Nat} {t : GapTree} (h : Valid lo hi t) :
    gap_of lo hi t ≤ hi - lo := by
  induction t generalizing lo hi with
  | nil => exact le_refl _
  | node c l o r ihl ihr =>
    simp only [valid_node] at h
    obtain ⟨h1, h2, hl, hr, g1, g2⟩ := h
    have := ihl hl
    have := ihr hr
    show max o.lmaxgap o.rmaxgap ≤ hi - lo
    rw [g1, g2]
    exact Nat.max_le.mpr ⟨by omega, by omega⟩

theorem gap_fields_bounded {lo hi : Nat} {t : GapTree} (h : Valid lo hi t)
    {o : jffs2_object_t} (ho : o ∈ objects t) :
    o.lmaxgap + lo ≤ o.id ∧ o.rmaxgap + o.id + 1 ≤ hi := by
  induction t generalizing lo hi with
  | nil => simp [objects] at ho
  | node c l y r ihl ihr =>
    simp only [valid_node] at h
    obtain ⟨h1, h2, hl, hr, g1, g2⟩ := h
    simp only [objects, List.mem_append, List.mem_cons] at ho
    rcases ho with ho | rfl | ho
    · have := ihl hl ho
      omega
    · have := gap_of_le hl
      have := gap_of_le hr
      omega
    · have := ihr hr ho
      omega

/-- The gap fields fit the `int` members of `jffs2_object_t` whenever the identifier
ceiling is at most `2^31`: no field of a reachable index exceeds `limit - 1`. -/
theorem gap_fields_fit (limit : Nat) (calls : List Call) (hl : limit ≤ 2 ^ 31)
    (o : jffs2_object_t) (ho : o ∈ (run limit calls).tree.objects) :
    o.lmaxgap < 2 ^ 31 ∧ o.rmaxgap < 2 ^ 31 := by
  have := gap_fields_bounded (valid_run limit calls) ho
  omega

end Jffs2

namespace Jffs2
open GapTree

/-! ## The index keeps the red-black shape -/

theorem root_color_augment (c : Color) (lo hi : Nat) (l : GapTree) (o : jffs2_object_t)
    (r : GapTree) : root_color (augment c lo hi l o r) = c := rfl

theorem black_height_augment (c : Color) (lo hi : Nat) (l : GapTree) (o : jffs2_object_t)
    (r : GapTree) :
    black_height (augment c lo hi l o r) = black_height (node c l o r) := by
  cases c <;> rfl

theorem no_red_red_augment (c : Color) (lo hi : Nat) (l : GapTree) (o : jffs2_object_t)
    (r : GapTree) : no_red_red (augment c lo hi l o r) ↔ no_red_red (node c l o r) :=
  Iff.rfl

theorem heights_agree_augment (c : Color) (lo hi : Nat) (l : GapTree) (o : jffs2_object_t)
    (r : GapTree) : heights_agree (augment c lo hi l o r) ↔ heights_agree (node c l o r) :=
  Iff.rfl

theorem no_red_red_paint {t : GapTree} (h : no_red_red t) : no_red_red (paint .black t) := by
  cases t with
  | nil => trivial
  | node c l o r =>
    simp_all [no_red_red, paint]

theorem rb_fix_left (lo hi : Nat) (l : GapTree) (v : jffs2_object_t) (r : GapTree)
    (hl : heights_agree l) (hr : heights_agree r) (cl : no_red_red (paint .black l))
    (cr : no_red_red r) (hh : black_height l = black_height r) :
    no_red_red (fix_left lo hi l v r) ∧ heights_agree (fix_left lo hi l v r)
      ∧ black_height (fix_left lo hi l v r) = black_height l + 1 := by
  rcases l with _ | ⟨_ | _, _ | ⟨_ | _, _, _, _⟩, _, _ | ⟨_ | _, _, _, _⟩⟩ <;>
    simp_all [fix_left, augment, no_red_red, heights_agree, black_height, root_color, paint] <;>
    omega

theorem rb_fix_right (lo hi : Nat) (l : GapTree) (v : jffs2_object_t) (r : GapTree)
    (hl : heights_agree l) (hr : heights_agree r) (cl : no_red_red l)
    (cr : no_red_red (paint .black r)) (hh : black_height l = black_height r) :
    no_red_red (fix_right lo hi l v r) ∧ heights_agree (fix_right lo hi l v r)
      ∧ black_height (fix_right lo hi l v r) = black_height l + 1 := by
  rcases r with _ | ⟨_ | _, _ | ⟨_ | _, _, _, _⟩, _, _ | ⟨_ | _, _, _, _⟩⟩ <;>
    simp_all [fix_right, augment, no_red_red, heights_agree, black_height, root_color, paint] <;>
    omega

end Jffs2

namespace Jffs2
open GapTree

theorem rb_ins (x : jffs2_object_t) (lo hi : Nat) (t : GapTree)
    (hc : no_red_red t) (hh : heights_agree t) :
    no_red_red (paint .black (ins x lo hi t))
      ∧ (root_color t = .black → no_red_red (ins x lo hi t))
      ∧ heights_agree (ins x lo hi t)
      ∧ black_height (ins x lo hi t) = black_height t := by
  induction t generalizing lo hi with
  | nil => simp [ins, augment, paint, no_red_red, heights_agree, black_height, root_color]
  | node c l y r ihl ihr =>
    simp only [no_red_red] at hc
    simp only [heights_agree] at hh
    obtain ⟨hcol, hcl, hcr⟩ := hc
    obtain ⟨hbh, hhl, hhr⟩ := hh
    unfold ins
    split
    · obtain ⟨i1, i2, i3, i4⟩ := ihl lo y.id hcl hhl
      cases c with
      | black =>
        obtain ⟨f1, f2, f3⟩ := rb_fix_left lo hi _ y r i3 hhr i1 hcr (by omega)
        exact ⟨no_red_red_paint f1, fun _ => f1, f2, by simp [f3, i4, black_height]⟩
      | red =>
        obtain ⟨hb1, hb2⟩ := hcol rfl
        have i2' := i2 hb1
        simp [augment, paint, no_red_red, heights_agree, black_height, root_color, *]
    · split
      · obtain ⟨i1, i2, i3, i4⟩ := ihr (y.id + 1) hi hcr hhr
        cases c with
        | black =>
          obtain ⟨f1, f2, f3⟩ := rb_fix_right lo hi l y _ hhl i3 hcl i1 (by omega)
          exact ⟨no_red_red_paint f1, fun _ => f1, f2, by simp [f3, black_height]⟩
        | red =>
          obtain ⟨hb1, hb2⟩ := hcol rfl
          have i2' := i2 hb2
          simp [augment, paint, no_red_red, heights_agree, black_height, root_color, *]
      · refine ⟨?_, fun _ => ?_, ?_, rfl⟩
        · exact no_red_red_paint (by simp [no_red_red]; exact ⟨hcol, hcl, hcr⟩)
        · simp only [no_red_red]; exact ⟨hcol, hcl, hcr⟩
        · simp only [heights_agree]; exact ⟨hbh, hhl, hhr⟩

theorem heights_agree_paint (c : Color) (t : GapTree) :
    heights_agree (paint c t) ↔ heights_agree t := by
  cases t <;> simp [paint, heights_agree]

theorem root_color_paint_black (t : GapTree) : root_color (paint .black t) = .black := by
  cases t <;> rfl

theorem rb_insert (lo hi : Nat) (x : jffs2_object_t) (t : GapTree) (h : RedBlack t) :
    RedBlack (GapTree.insert lo hi x t) := by
  obtain ⟨hc, hh, -⟩ := h
  obtain ⟨i1, -, i3, -⟩ := rb_ins x lo hi t hc hh
  exact ⟨i1, (heights_agree_paint _ _).mpr i3, root_color_paint_black _⟩

end Jffs2

namespace Jffs2
open GapTree

theorem no_red_red_of_painted {l : GapTree} (cl : no_red_red (paint .black l))
    (hnr : ∀ a x b, l ≠ node .red a x b) : no_red_red l := by
  rcases l with _ | ⟨_ | _, a, x, b⟩
  · trivial
  · exact absurd rfl (hnr a x b)
  · exact cl

theorem rb_fix_del_left (lo hi : Nat) (l : GapTree) (v : jffs2_object_t) (r : GapTree)
    (hl : heights_agree l) (hr : heights_agree r)
    (hh : black_height l + 1 = black_height r)
    (cl : no_red_red (paint .black l)) (cr : no_red_red r) :
    heights_agree (fix_del_left lo hi l v r)
      ∧ black_height (fix_del_left lo hi l v r) = black_height r
      ∧ no_red_red (paint .black (fix_del_left lo hi l v r))
      ∧ (root_color r = .black → no_red_red (fix_del_left lo hi l v r)) := by
  unfold fix_del_left
  split
  · simp_all [augment, paint, no_red_red, heights_agree, black_height, root_color]
  · rename_i hnr
    have cl' := no_red_red_of_painted cl (fun a x b h => hnr a x b h)
    split
    · rename_i a y b
      simp only [heights_agree, no_red_red, black_height] at hr cr hh
      obtain ⟨f1, f2, f3⟩ := rb_fix_right lo hi l v (node .red a y b) hl
        (by simp only [heights_agree]; exact hr) cl'
        (by simp only [paint, no_red_red]; simp [cr.2]) (by simp only [black_height]; omega)
      refine ⟨f2, ?_, no_red_red_paint f1, fun _ => f1⟩
      simp only [black_height, f3]
      omega
    · rename_i a y b z c
      simp only [heights_agree, no_red_red, black_height, root_color] at hr cr hh
      obtain ⟨hbh, ⟨hab, hha, hhb⟩, hhc⟩ := hr
      obtain ⟨hcol, ⟨-, hca, hcb⟩, hcc⟩ := cr
      have hcblack := (hcol trivial).2
      rcases c with _ | ⟨_ | _, c1, w, c2⟩
      · simp [black_height] at hbh
      · simp [root_color] at hcblack
      · simp only [heights_agree, no_red_red, black_height] at hhc hcc hbh
        obtain ⟨f1, f2, f3⟩ := rb_fix_right (y.id + 1) hi b z (node .red c1 w c2) hhb
          (by simp only [heights_agree]; exact hhc) hcb
          (by simp only [paint, no_red_red]; simp [hcc.2]) (by simp only [black_height]; omega)
        simp only [paint, augment, heights_agree, black_height, no_red_red, root_color]
        refine ⟨⟨by omega, ⟨by omega, hl, hha⟩, f2⟩, by omega, ?_, fun h => by cases h⟩
        simp [cl', hca, f1]
    · rename_i h1 h2
      exfalso
      rcases r with _ | ⟨_ | _, r1, z, c⟩
      · simp [black_height] at hh
      · simp only [no_red_red, root_color] at cr
        have hb := (cr.1 trivial).1
        rcases r1 with _ | ⟨_ | _, a, y, b⟩
        · simp [black_height] at hh
        · simp [root_color] at hb
        · exact h2 a y b z c rfl
      · exact h1 r1 z c rfl

end Jffs2

namespace Jffs2
open GapTree

theorem rb_fix_del_right (lo hi : Nat) (l : GapTree) (v : jffs2_object_t) (r : GapTree)
    (hl : heights_agree l) (hr : heights_agree r)
    (hh : black_height l = black_height r + 1)
    (cl : no_red_red l) (cr : no_red_red (paint .black r)) :
    heights_agree (fix_del_right lo hi l v r)
      ∧ black_height (fix_del_right lo hi l v r) = black_height l
      ∧ no_red_red (paint .black (fix_del_right lo hi l v r))
      ∧ (root_color l = .black → no_red_red (fix_del_right lo hi l v r)) := by
  unfold fix_del_right
  split
  · simp_all [augment, paint, no_red_red, heights_agree, black_height, root_color]
  · rename_i hnr
    have cr' := no_red_red_of_painted cr (fun a x b h => hnr a x b h)
    split
    · rename_i a x b
      simp only [heights_agree, no_red_red, black_height] at hl cl hh
      obtain ⟨f1, f2, f3⟩ := rb_fix_left lo hi (node .red a x b) v r
        (by simp only [heights_agree]; exact hl) hr
        (by simp only [paint, no_red_red]; simp [cl.2]) cr'
        (by simp only [black_height]; omega)
      refine ⟨f2, ?_, no_red_red_paint f1, fun _ => f1⟩
      simp only [black_height, f3]
    · rename_i a x b y c
      simp only [heights_agree, no_red_red, black_height, root_color] at hl cl hh
      obtain ⟨hbh, hha, ⟨hbc, hhb, hhc⟩⟩ := hl
      obtain ⟨hcol, hca, ⟨-, hcb, hcc⟩⟩ := cl
      have hablack := (hcol trivial).1
      rcases a with _ | ⟨_ | _, a1, w, a2⟩
      · simp [black_height] at hbh
      · simp [root_color] at hablack
      · simp only [heights_agree, no_red_red, black_height] at hha hca hbh hh
        obtain ⟨f1, f2, f3⟩ := rb_fix_left lo y.id (node .red a1 w a2) x b
          (by simp only [heights_agree]; exact hha) hhb
          (by simp only [paint, no_red_red]; simp [hca.2]) hcb
          (by simp only [black_height]; omega)
        simp only [paint, augment, heights_agree, black_height, no_red_red, root_color]
        simp only [black_height] at f3
        refine ⟨⟨by omega, f2, ⟨by omega, hhc, hr⟩⟩, by omega, ?_, fun h => by cases h⟩
        simp [cr', hcc, f1]
    · rename_i h1 h2
      exfalso
      rcases l with _ | ⟨_ | _, a, x, l2⟩
      · simp [black_height] at hh
      · simp only [no_red_red, root_color, heights_agree, black_height] at cl hl hh
        have hb := (cl.1 trivial).2
        rcases l2 with _ | ⟨_ | _, b, y, c⟩
        · simp only [black_height] at hl
          omega
        · simp [root_color] at hb
        · exact h2 a x b y c rfl
      · exact h1 a x l2 rfl

end Jffs2

namespace Jffs2
open GapTree

theorem root_color_widen (lo hi : Nat) (t : GapTree) :
    root_color (widen lo hi t) = root_color t := by
  cases t <;> rfl

theorem black_height_widen (lo hi : Nat) (t : GapTree) :
    black_height (widen lo hi t) = black_height t := by
  rcases t with _ | ⟨_ | _, l, o, r⟩ <;> rfl

theorem no_red_red_widen (lo hi : Nat) (t : GapTree) :
    no_red_red (widen lo hi t) ↔ no_red_red t := by
  induction t generalizing lo with
  | nil => rfl
  | node c l o r _ ihr =>
    simp only [widen, augment, no_red_red, root_color_widen, ihr]

theorem heights_agree_widen (lo hi : Nat) (t : GapTree) :
    heights_agree (widen lo hi t) ↔ heights_agree t := by
  induction t generalizing lo with
  | nil => rfl
  | node c l o r _ ihr =>
    simp only [widen, augment, heights_agree, black_height_widen, ihr]

theorem no_red_red_paint_widen (lo hi : Nat) (t : GapTree) :
    no_red_red (paint .black (widen lo hi t)) ↔ no_red_red (paint .black t) := by
  cases t with
  | nil => rfl
  | node c l o r =>
    simp only [widen, augment, paint, no_red_red, root_color_widen, no_red_red_widen]

theorem split_min_nil_iff (hi : Nat) (t : GapTree) : split_min hi t = none ↔ t = nil := by
  cases t with
  | nil => simp [split_min]
  | node c l x r =>
    simp only [split_min]
    split <;> simp

theorem rb_split_min (hi : Nat) (t : GapTree) (m : jffs2_object_t) (t' : GapTree)
    (hs : split_min hi t = some (m, t')) (hh : heights_agree t) (hc : no_red_red t) :
    heights_agree t'
      ∧ (root_color t = .red → black_height t' = black_height t ∧ no_red_red t')
      ∧ (root_color t = .black →
          black_height t' = black_height t - 1 ∧ no_red_red (paint .black t')) := by
  induction t generalizing hi m t' with
  | nil => simp [split_min] at hs
  | node c l x r ihl _ =>
    simp only [heights_agree] at hh
    simp only [no_red_red] at hc
    obtain ⟨hbh, hhl, hhr⟩ := hh
    obtain ⟨hcol, hcl, hcr⟩ := hc
    simp only [split_min] at hs
    split at hs
    · rename_i hnone
      have hl0 := (split_min_nil_iff _ _).mp hnone
      subst hl0
      simp only [Option.some.injEq, Prod.mk.injEq] at hs
      obtain ⟨rfl, rfl⟩ := hs
      simp only [black_height] at hbh
      cases c <;> simp_all [black_height, root_color, no_red_red_paint]
    · rename_i m' l' hm
      simp only [Option.some.injEq, Prod.mk.injEq] at hs
      obtain ⟨rfl, rfl⟩ := hs
      obtain ⟨i1, i2, i3⟩ := ihl _ _ _ hm hhl hcl
      rcases l with _ | ⟨_ | _, a, y, b⟩
      · simp [split_min] at hm
      · -- the left child is red, so this node is black
        obtain ⟨j1, j2⟩ := i2 rfl
        cases c with
        | red => simp [root_color] at hcol
        | black =>
          simp_all [is_black, augment, heights_agree, black_height, no_red_red, root_color,
            paint]
      · obtain ⟨j1, j2⟩ := i3 rfl
        simp only [black_height] at j1 hbh
        obtain ⟨f1, f2, f3, f4⟩ := rb_fix_del_left _ hi l' x r i1 hhr (by omega) j2 hcr
        simp only [is_black, if_true]
        refine ⟨f1, fun hred => ?_, fun hblack => ?_⟩
        · simp only [root_color] at hred
          subst hred
          exact ⟨by simp only [black_height, f2]; omega, f4 (hcol rfl).2⟩
        · simp only [root_color] at hblack
          subst hblack
          exact ⟨by simp only [black_height, f2]; omega, f3⟩

end Jffs2

namespace Jffs2
open GapTree

theorem rb_del (k lo hi : Nat) (t : GapTree) (hh : heights_agree t) (hc : no_red_red t) :
    heights_agree (del k lo hi t)
      ∧ (root_color t = .red →
          black_height (del k lo hi t) = black_height t ∧ no_red_red (del k lo hi t))
      ∧ (root_color t = .black →
          black_height (del k lo hi t) = black_height t - 1
            ∧ no_red_red (paint .black (del k lo hi t))) := by
  induction t generalizing lo hi with
  | nil => simp [del, heights_agree, root_color, black_height, paint, no_red_red]
  | node c l y r ihl ihr =>
    simp only [heights_agree] at hh
    simp only [no_red_red] at hc
    obtain ⟨hbh, hhl, hhr⟩ := hh
    obtain ⟨hcol, hcl, hcr⟩ := hc
    unfold del
    split
    · obtain ⟨i1, i2, i3⟩ := ihl lo y.id hhl hcl
      rcases l with _ | ⟨_ | _, a, x, b⟩
      · clear ihl ihr i1 i2 i3
        simp only [is_black, del]
        simp only [black_height] at hbh
        cases c <;>
          simp_all [augment, heights_agree, black_height, no_red_red, root_color, paint]
      · obtain ⟨j1, j2⟩ := i2 rfl
        clear ihl ihr i2 i3
        cases c with
        | red => simp [root_color] at hcol
        | black =>
          simp_all [is_black, augment, heights_agree, black_height, no_red_red, root_color,
            paint]
      · obtain ⟨j1, j2⟩ := i3 rfl
        simp only [black_height] at j1 hbh
        obtain ⟨f1, f2, f3, f4⟩ := rb_fix_del_left lo hi _ y r i1 hhr (by omega) j2 hcr
        simp only [is_black, if_true]
        refine ⟨f1, fun hred => ?_, fun hblack => ?_⟩
        · simp only [root_color] at hred
          subst hred
          exact ⟨by simp only [black_height, f2]; omega, f4 (hcol rfl).2⟩
        · simp only [root_color] at hblack
          subst hblack
          exact ⟨by simp only [black_height, f2]; omega, f3⟩
    · split
      · obtain ⟨i1, i2, i3⟩ := ihr (y.id + 1) hi hhr hcr
        rcases r with _ | ⟨_ | _, a, x, b⟩
        · clear ihl ihr i1 i2 i3
          simp only [is_black, del]
          simp only [black_height] at hbh
          cases c <;>
            simp_all [augment, heights_agree, black_height, no_red_red, root_color, paint]
        · obtain ⟨j1, j2⟩ := i2 rfl
          clear ihl ihr i2 i3
          cases c with
          | red => simp [root_color] at hcol
          | black =>
            simp_all [is_black, augment, heights_agree, black_height, no_red_red, root_color,
              paint]
        · obtain ⟨j1, j2⟩ := i3 rfl
          simp only [black_height] at j1 hbh
          obtain ⟨f1, f2, f3, f4⟩ := rb_fix_del_right lo hi l y _ hhl i1 (by omega) hcl j2
          simp only [is_black, if_true]
          refine ⟨f1, fun hred => ?_, fun hblack => ?_⟩
          · simp only [root_color] at hred
            subst hred
            exact ⟨by simp only [black_height, f2], f4 (hcol rfl).1⟩
          · simp only [root_color] at hblack
            subst hblack
            exact ⟨by simp only [black_height, f2]; omega, f3⟩
      · split
        · rename_i hnone
          have hr0 := (split_min_nil_iff _ _).mp hnone
          subst hr0
          simp only [black_height] at hbh
          rw [heights_agree_widen, black_height_widen, no_red_red_widen,
            no_red_red_paint_widen]
          clear ihl ihr
          cases c <;> simp_all [black_height, root_color, no_red_red_paint]
        · rename_i m r' hm
          obtain ⟨s1, s2, s3⟩ := rb_split_min hi r m r' hm hhr hcr
          have wl := (heights_agree_widen lo m.id l).mpr hhl
          have wc := (no_red_red_widen lo m.id l).mpr hcl
          have wb := black_height_widen lo m.id l
          rcases r with _ | ⟨_ | _, a, x, b⟩
          · simp [split_min] at hm
          · obtain ⟨j1, j2⟩ := s2 rfl
            clear ihl ihr s2 s3
            cases c with
            | red => simp [root_color] at hcol
            | black =>
              simp_all [is_black, augment, heights_agree, black_height, no_red_red,
                root_color, paint]
          · obtain ⟨j1, j2⟩ := s3 rfl
            simp only [black_height] at j1 hbh
            obtain ⟨f1, f2, f3, f4⟩ := rb_fix_del_right lo hi _ m r' wl s1
              (by rw [wb]; omega) wc j2
            simp only [is_black, if_true]
            rw [wb] at f2
            rw [root_color_widen] at f4
            refine ⟨f1, fun hred => ?_, fun hblack => ?_⟩
            · simp only [root_color] at hred
              subst hred
              exact ⟨by simp only [black_height, f2], f4 (hcol rfl).1⟩
            · simp only [root_color] at hblack
              subst hblack
              exact ⟨by simp only [black_height, f2]; omega, f3⟩

theorem rb_remove (lo hi k : Nat) (t : GapTree) (h : RedBlack t) :
    RedBlack (remove lo hi k t) := by
  obtain ⟨hc, hh, hb⟩ := h
  obtain ⟨i1, -, i3⟩ := rb_del k lo hi t hh hc
  exact ⟨(i3 hb).2, (heights_agree_paint _ _).mpr i1, root_color_paint_black _⟩

theorem root_color_update (k : Nat) (f : jffs2_object_t → jffs2_object_t) (t : GapTree) :
    root_color (update k f t) = root_color t := by
  cases t with
  | nil => rfl
  | node c l o r =>
    simp only [update]
    split_ifs <;> rfl

theorem black_height_update (k : Nat) (f : jffs2_object_t → jffs2_object_t) (t : GapTree) :
    black_height (update k f t) = black_height t := by
  induction t with
  | nil => rfl
  | node c l o r ihl ihr =>
    simp only [update]
    split_ifs <;> cases c <;> simp [black_height, ihl]

theorem rb_update (k : Nat) (f : jffs2_object_t → jffs2_object_t) (t : GapTree)
    (h : RedBlack t) : RedBlack (update k f t) := by
  obtain ⟨hc, hh, hb⟩ := h
  refine ⟨?_, ?_, by rw [root_color_update]; exact hb⟩
  · clear hh hb
    induction t with
    | nil => trivial
    | node c l o r ihl ihr =>
      simp only [no_red_red] at hc
      simp only [update]
      split_ifs <;> simp only [no_red_red, root_color_update] <;>
        first
        | exact ⟨hc.1, ihl hc.2.1, hc.2.2⟩
        | exact ⟨hc.1, hc.2.1, ihr hc.2.2⟩
        | exact hc
  · clear hc hb
    induction t with
    | nil => trivial
    | node c l o r ihl ihr =>
      simp only [heights_agree] at hh
      simp only [update]
      split_ifs <;> simp only [heights_agree, black_height_update] <;>
        first
        | exact ⟨hh.1, ihl hh.2.1, hh.2.2⟩
        | exact ⟨hh.1, hh.2.1, ihr hh.2.2⟩
        | exact hh

theorem rb_step (limit : Nat) (r : Registry) (c : Call) (h : RedBlack r.tree) :
    RedBlack (step limit r c).tree := by
  cases c with
  | create type mem =>
    simp only [step, object_create]
    split
    · split
      · exact h
      · exact rb_insert _ _ _ _ h
    · exact h
  | get id =>
    simp only [step, object_get]
    split
    · exact h
    · exact rb_update _ _ _ h
  | put id =>
    simp only [step, object_put]
    split
    · exact h
    · split
      · exact h
      · split
        · exact rb_remove _ _ _ _ h
        · exact rb_update _ _ _ h
  | destroy id =>
    simp only [step, object_destroy]
    split
    · exact h
    · split
      · exact rb_remove _ _ _ _ h
      · split <;> exact h

/-- The index is a red-black tree after every sequence of registry calls: the insertions
and removals keep it balanced. -/
theorem index_red_black (limit : Nat) (calls : List Call) :
    RedBlack (run limit calls).tree := by
  have hgen : ∀ (cs : List Call) (r : Registry), RedBlack r.tree →
      RedBlack (cs.foldl (step limit) r).tree := by
    intro cs
    induction cs with
    | nil => exact fun _ h => h
    | cons c cs ih => exact fun r h => ih _ (rb_step limit r c h)
  exact hgen calls object_init ⟨trivial, trivial, rfl⟩

end Jffs2

namespace Jffs2
open GapTree

/-! ## Consequences for the registry calls -/

theorem create_id_eq_scan (limit : Nat) (type : Int) (r : Registry)
    (h : Valid 0 limit r.tree) :
    (object_create limit type true r).2.map (·.id)
      = first_free (fun j => r.tree.contains j) 0 limit := by
  rw [create_id_eq_find_free limit type r h, find_free_eq_scan h]

theorem scan_smallest {used : Nat → Bool} {limit i : Nat}
    (h : first_free used 0 limit = some i) : SmallestFree used 0 limit i := by
  have := (first_free_spec used 0 limit).1 i h
  simpa using this

theorem scan_of_smallest {used : Nat → Bool} {limit i : Nat}
    (h : SmallestFree used 0 limit i) : first_free used 0 limit = some i := by
  have hs := first_free_spec used 0 limit
  simp only [Nat.zero_add] at hs
  cases hB : first_free used 0 limit with
  | none =>
    have := hs.2 hB i h.1 h.2.1
    rw [h.2.2.1] at this
    exact absurd this (by decide)
  | some b => rw [smallest_free_unique (hs.1 b hB) h]

theorem scan_some_of_free {used : Nat → Bool} {limit j : Nat} (hj : j < limit)
    (hf : used j = false) : ∃ i, first_free used 0 limit = some i ∧ i ≤ j := by
  have hs := first_free_spec used 0 limit
  simp only [Nat.zero_add] at hs
  cases hB : first_free used 0 limit with
  | none =>
    have := hs.2 hB j (Nat.zero_le _) hj
    rw [hf] at this
    exact absurd this (by decide)
  | some b =>
    refine ⟨b, rfl, ?_⟩
    by_contra hcon
    have := (hs.1 b hB).2.2.2 j (Nat.zero_le _) (by omega)
    rw [hf] at this
    exact absurd this (by decide)

theorem objects_bounds {lo hi : Nat} {t : GapTree} (h : Valid lo hi t)
    {o : jffs2_object_t} (ho : o ∈ objects t) : lo ≤ o.id ∧ o.id < hi := by
  have : strip o ∈ entries t := List.mem_map_of_mem strip ho
  simpa [strip_id] using entries_bounds h this

theorem objects_sorted {lo hi : Nat} {t : GapTree} (h : Valid lo hi t) :
    ((objects t).map (·.id)).Pairwise (· < ·) := by
  induction t generalizing lo hi with
  | nil => simp [objects]
  | node c l o r ihl ihr =>
    simp only [valid_node] at h
    obtain ⟨h1, h2, hl, hr, -, -⟩ := h
    simp only [objects, List.map_append, List.map_cons, List.pairwise_append,
      List.pairwise_cons, List.mem_map, List.mem_cons, forall_exists_index, and_imp,
      forall_apply_eq_imp_iff₂]
    refine ⟨ihl hl, ⟨fun a ha => ?_, ihr hr⟩, fun a ha b hb => ?_⟩
    · have := objects_bounds hr ha
      omega
    · have := objects_bounds hl ha
      rcases hb with rfl | ⟨b', hb', rfl⟩
      · omega
      · have := objects_bounds hr hb'
        omega

theorem lookup_objects {lo hi : Nat} {t : GapTree} (h : Valid lo hi t)
    {o : jffs2_object_t} (ho : o ∈ objects t) : lookup o.id t = some o := by
  induction t generalizing lo hi with
  | nil => simp [objects] at ho
  | node c l y r ihl ihr =>
    simp only [valid_node] at h
    obtain ⟨h1, h2, hl, hr, -, -⟩ := h
    simp only [objects, List.mem_append, List.mem_cons] at ho
    simp only [lookup]
    rcases ho with ho | rfl | ho
    · have := objects_bounds hl ho
      rw [if_pos this.2]
      exact ihl hl ho
    · simp
    · have := objects_bounds hr ho
      rw [if_neg (by omega), if_pos (by omega)]
      exact ihr hr ho

theorem objects_of_lookup {j : Nat} {t : GapTree} {o : jffs2_object_t}
    (h : lookup j t = some o) : o ∈ objects t := by
  induction t with
  | nil => simp [lookup] at h
  | node c l y r ihl ihr =>
    simp only [lookup] at h
    simp only [objects, List.mem_append, List.mem_cons]
    split at h
    · exact Or.inl (ihl h)
    · split at h
      · exact Or.inr (Or.inr (ihr h))
      · simp only [Option.some.injEq] at h
        exact Or.inr (Or.inl h.symm)

theorem lookup_erase_self {limit : Nat} {r : Registry} (h : Valid 0 limit r.tree)
    (id : Nat) : (erase limit id r).tree.lookup id = none := by
  rw [lookup_none_iff_payload]
  show payload id (remove 0 limit id r.tree) = none
  rw [payload_remove h, if_pos rfl]

theorem payload_erase_other {limit : Nat} {r : Registry} (h : Valid 0 limit r.tree)
    (id j : Nat) (hj : j ≠ id) : payload j (erase limit id r).tree = payload j r.tree := by
  show payload j (remove 0 limit id r.tree) = payload j r.tree
  rw [payload_remove h, if_neg hj]

theorem lookup_some_of_payload {j : Nat} {t : GapTree} {e : jffs2_object_t}
    (h : payload j t = some e) : ∃ o, lookup j t = some o := by
  unfold payload at h
  cases hl : lookup j t with
  | none => rw [hl] at h; simp at h
  | some o => exact ⟨o, rfl⟩

theorem lookup_step_none {limit : Nat} {r : Registry} (hv : Valid 0 limit r.tree)
    {id : Nat} {o : jffs2_object_t} (hlook : r.tree.lookup id = some o) (c : Call)
    (hnone : (step limit r c).tree.lookup id = none) :
    (c = .destroy id ∧ o.refs = 0) ∨ (c = .put id ∧ o.refs = 1 ∧ id ∈ r.pending) := by
  have hpay : payload id r.tree = some (strip o) := by simp [payload, hlook]
  have herase : ∀ j, (erase limit j r).tree.lookup id = none → j = id := by
    intro j hj
    by_contra hne
    rw [lookup_none_iff_payload, payload_erase_other hv j id (fun h => hne h.symm), hpay] at hj
    simp at hj
  have hupd : ∀ (j : Nat) (f : jffs2_object_t → jffs2_object_t),
      lookup id (update j f r.tree) = none → (∀ x, (f x).id = x.id) → False := by
    intro j f hn hf
    rw [lookup_update j f hf, hlook] at hn
    split at hn <;> simp at hn
  cases c with
  | create type mem =>
    exfalso
    simp only [step, object_create] at hnone
    split at hnone
    · split at hnone
      · rw [hlook] at hnone
        simp at hnone
      · rename_i nid hid
        obtain ⟨-, a2, a3, -⟩ := (find_free_spec hv).1 nid hid
        rw [lookup_none_iff_payload] at hnone
        simp only at hnone
        rw [payload_insert hv (new_object nid type) (Nat.zero_le _) a2 a3, hpay] at hnone
        split at hnone <;> simp at hnone
    · rw [hlook] at hnone
      simp at hnone
  | get j =>
    exfalso
    simp only [step, object_get] at hnone
    split at hnone
    · rw [hlook] at hnone
      simp at hnone
    · exact hupd j _ hnone (fun _ => rfl)
  | put j =>
    right
    simp only [step, object_put] at hnone
    split at hnone
    · rw [hlook] at hnone
      simp at hnone
    · rename_i oj hj
      split at hnone
      · rw [hlook] at hnone
        simp at hnone
      · rename_i hne
        split at hnone
        · rename_i hcond
          have hji := herase j hnone
          subst hji
          rw [hlook] at hj
          have : o = oj := Option.some.inj hj
          subst this
          exact ⟨rfl, by omega, hcond.2⟩
        · exact (hupd j _ hnone (fun _ => rfl)).elim
  | destroy j =>
    left
    simp only [step, object_destroy] at hnone
    split at hnone
    · rw [hlook] at hnone
      simp at hnone
    · rename_i oj hj
      split at hnone
      · rename_i hzero
        have hji := herase j hnone
        subst hji
        rw [hlook] at hj
        have : o = oj := Option.some.inj hj
        subst this
        exact ⟨rfl, hzero⟩
      · split at hnone <;>
        · rw [hlook] at hnone
          simp at hnone

/-! ## Single calls, seen through the contents of the index -/

theorem payload_init (j : Nat) : payload j object_init.tree = none := rfl

theorem contains_eq_payload (j : Nat) (t : GapTree) :
    contains j t = (payload j t).isSome := by
  unfold contains payload
  cases lookup j t <;> rfl

theorem create_next {limit : Nat} {r : Registry} (hv : Valid 0 limit r.tree) (type : Int)
    (i : Nat) (hlt : i < limit) (hfree : payload i r.tree = none)
    (hused : ∀ j, j < i → ∃ e, payload j r.tree = some e) :
    (object_create limit type true r).2.map (·.id) = some i
      ∧ (∀ j, payload j (object_create limit type true r).1.tree
          = if j = i then some (strip (new_object i type)) else payload j r.tree)
      ∧ (object_create limit type true r).1.pending = r.pending
      ∧ (object_create limit type true r).2.map strip = some (strip (new_object i type)) := by
  have hsm : SmallestFree (fun j => r.tree.contains j) 0 limit i := by
    refine ⟨Nat.zero_le _, hlt, ?_, fun j _ hj => ?_⟩
    · simp [contains_eq_payload, hfree]
    · obtain ⟨e, he⟩ := hused j hj
      simp [contains_eq_payload, he]
  have hff : r.tree.find_free 0 limit = some i := by
    rw [find_free_eq_scan hv]
    exact scan_of_smallest hsm
  refine ⟨by rw [create_id_eq_find_free limit type r hv, hff], ?_, ?_, ?_⟩
  · intro j
    unfold object_create
    simp only [if_true, hff]
    exact payload_insert hv (new_object i type) (Nat.zero_le _) hlt hsm.2.2.1 j
  · unfold object_create
    simp only [if_true, hff]
  · unfold object_create
    simp only [if_true, hff]
    have := payload_insert hv (new_object i type) (Nat.zero_le _) hlt hsm.2.2.1 i
    rw [if_pos (new_object_id i type).symm] at this
    exact this

theorem destroy_deferred {limit : Nat} {r : Registry} {id : Nat} {e : jffs2_object_t}
    (hp : payload id r.tree = some e) (hpos : 0 < e.refs) :
    (object_destroy limit id r).tree = r.tree
      ∧ (object_destroy limit id r).pending
          = if id ∈ r.pending then r.pending else id :: r.pending := by
  obtain ⟨o, ho⟩ := lookup_some_of_payload hp
  have hrefs : o.refs = e.refs := by
    simp only [payload, ho, Option.map_some', Option.some.injEq] at hp
    rw [← hp]
    rfl
  unfold object_destroy
  rw [ho]
  simp only
  rw [if_neg (by omega)]
  split <;> simp [*]

theorem put_erases {limit : Nat} {r : Registry} {id : Nat} {e : jffs2_object_t}
    (hp : payload id r.tree = some e) (hone : e.refs = 1) (hpend : id ∈ r.pending) :
    object_put limit id r = erase limit id r := by
  obtain ⟨o, ho⟩ := lookup_some_of_payload hp
  have hrefs : o.refs = e.refs := by
    simp only [payload, ho, Option.map_some', Option.some.injEq] at hp
    rw [← hp]
    rfl
  unfold object_put
  rw [ho]
  simp only
  rw [if_neg (by omega), if_pos ⟨by omega, hpend⟩]

theorem payload_erase {limit : Nat} {r : Registry} (hv : Valid 0 limit r.tree) (id j : Nat) :
    payload j (erase limit id r).tree = if j = id then none else payload j r.tree :=
  payload_remove hv id j

theorem run_snoc (limit : Nat) (calls : List Call) (c : Call) :
    run limit (calls ++ [c]) = step limit (run limit calls) c := by
  simp [run, List.foldl_append]

theorem two_creates (limit : Nat) (h2 : 2 ≤ limit) (t1 t2 : Int) :
    Valid 0 limit (run limit [.create t1 true, .create t2 true]).tree
      ∧ (∀ j, payload j (run limit [.create t1 true, .create t2 true]).tree
          = if j = 1 then some (strip (new_object 1 t2))
            else if j = 0 then some (strip (new_object 0 t1)) else none)
      ∧ (run limit [.create t1 true, .create t2 true]).pending = []
      ∧ (object_create limit t1 true object_init).2.map strip
          = some (strip (new_object 0 t1))
      ∧ (object_create limit t2 true (run limit [.create t1 true])).2.map (·.id) = some 1 := by
  have hv0 : Valid 0 limit object_init.tree := Nat.zero_le _
  obtain ⟨-, p1, q1, s1⟩ := create_next hv0 t1 0 (by omega) rfl
    (fun j hj => absurd hj (Nat.not_lt_zero j))
  have hv1 := valid_object_create limit t1 true object_init hv0
  show Valid 0 limit (object_create limit t2 true
      (object_create limit t1 true object_init).1).1.tree
    ∧ (∀ j, payload j (object_create limit t2 true
      (object_create limit t1 true object_init).1).1.tree = _)
    ∧ (object_create limit t2 true (object_create limit t1 true object_init).1).1.pending = []
    ∧ (object_create limit t1 true object_init).2.map strip = _
    ∧ (object_create limit t2 true (object_create limit t1 true object_init).1).2.map (·.id)
        = some 1
  refine ⟨?_, ?_, ?_, s1, ?_⟩
  all_goals
    generalize (object_create limit t1 true object_init).1 = r1 at p1 q1 hv1 ⊢
    obtain ⟨i2, p2, q2, -⟩ := create_next hv1 t2 1 (by omega)
      (by rw [p1]; simp [payload_init]) (fun j hj => ⟨_, by rw [p1, if_pos (by omega)]⟩)
  · exact valid_object_create limit t2 true r1 hv1
  · intro j
    rw [p2, p1, payload_init]
  · rw [q2, q1]
    rfl
  · exact i2

/-- The deferred-destroy scenario for every ceiling of at least two ids and whatever the
`type` arguments: create gives id 0 with one reference, create gives id 1, a destroy of
object 0 while that reference is held keeps it in the index (request recorded), the put
of object 0 erases it, get of 0 finds nothing, and the next create returns id 0. -/
theorem deferred_scenario (limit : Nat) (h2 : 2 ≤ limit) (t1 t2 t3 : Int) :
    (object_create limit t1 true object_init).2.map (fun x => (x.id, x.refs)) = some (0, 1)
      ∧ (object_create limit t2 true (run limit [.create t1 true])).2.map (·.id) = some 1
      ∧ ((run limit [.create t1 true, .create t2 true, .destroy 0]).tree.lookup 0).map
          (fun x => (x.id, x.refs)) = some (0, 1)
      ∧ (run limit [.create t1 true, .create t2 true, .destroy 0]).pending = [0]
      ∧ (run limit [.create t1 true, .create t2 true, .destroy 0, .put 0]).tree.lookup 0 = none
      ∧ (object_get 0 (run limit [.create t1 true, .create t2 true, .destroy 0, .put 0])).2
          = none
      ∧ (object_create limit t3 true
          (run limit [.create t1 true, .create t2 true, .destroy 0, .put 0])).2.map (·.id)
          = some 0 := by
  obtain ⟨hv, p, q, s1, i2⟩ := two_creates limit h2 t1 t2
  have e1 : run limit [.create t1 true, .create t2 true, .destroy 0]
      = object_destroy limit 0 (run limit [.create t1 true, .create t2 true]) := rfl
  have e2 : run limit [.create t1 true, .create t2 true, .destroy 0, .put 0]
      = object_put limit 0 (object_destroy limit 0
          (run limit [.create t1 true, .create t2 true])) := rfl
  have fields : ∀ x : Option jffs2_object_t,
      x.map (fun y => (y.id, y.refs)) = (x.map strip).map (fun y => (y.id, y.refs)) := by
    intro x
    cases x <;> rfl
  rw [e1, e2]
  generalize run limit [.create t1 true, .create t2 true] = r at hv p q ⊢
  have p0 : payload 0 r.tree = some (strip (new_object 0 t1)) := by
    rw [p]
    simp
  have p1 : payload 1 r.tree = some (strip (new_object 1 t2)) := by
    rw [p]
    simp
  obtain ⟨d1, d2⟩ := @destroy_deferred limit _ _ _ p0 Nat.zero_lt_one
  rw [q] at d2
  have hvd : Valid 0 limit (object_destroy limit 0 r).tree := by rw [d1]; exact hv
  have pd : payload 0 (object_destroy limit 0 r).tree = some (strip (new_object 0 t1)) := by
    rw [d1]; exact p0
  have hput := @put_erases limit _ _ _ pd rfl (by rw [d2]; simp)
  have hgone := lookup_erase_self hvd 0
  have hve := valid_erase limit 0 _ hvd
  refine ⟨by rw [fields, s1]; rfl, i2, ?_, by rw [d2]; rfl, by rw [hput]; exact hgone, ?_, ?_⟩
  · rw [fields]
    show (payload 0 (object_destroy limit 0 r).tree).map _ = _
    rw [pd]
    rfl
  · rw [hput]
    unfold object_get
    rw [hgone]
  · rw [hput]
    refine (create_next hve t3 0 (by omega) ?_ (fun j hj => absurd hj (Nat.not_lt_zero j))).1
    rw [payload_erase hvd, if_pos rfl]

end Jffs2

namespace Jffs2
open GapTree

/-! ## The properties of the registry -/

/-- C2. Uniqueness: after any sequence of create / get / put / destroy calls the objects
in the index have pairwise different ids (the index lists them in strictly increasing id
order, and each of them is the one found under its id), and `object_create` hands out
only an id that no object in the index holds at that moment: an id that was in use comes
back only after its object has left the index. -/
theorem live_ids_unique (limit : Nat) (calls : List Call) :
    ((run limit calls).tree.objects.map (·.id)).Pairwise (· < ·)
      ∧ ((run limit calls).tree.objects.map (·.id)).Nodup
      ∧ (∀ o₁ ∈ (run limit calls).tree.objects, ∀ o₂ ∈ (run limit calls).tree.objects,
          o₁.id = o₂.id → o₁ = o₂)
      ∧ (∀ o, o ∈ (run limit calls).tree.objects
          ↔ (run limit calls).tree.lookup o.id = some o)
      ∧ (∀ (type : Int) (mem : Bool) (o : jffs2_object_t),
          (object_create limit type mem (run limit calls)).2 = some o →
            (run limit calls).tree.contains o.id = false
              ∧ (∀ o' ∈ (run limit calls).tree.objects, o'.id ≠ o.id)
              ∧ (object_create limit type mem (run limit calls)).1.tree.lookup o.id
                  = some o) := by
  have hv := valid_run limit calls
  have hs := objects_sorted hv
  refine ⟨hs, hs.imp (fun h => Nat.ne_of_lt h), fun o₁ h₁ o₂ h₂ he => ?_,
    fun o => ⟨fun ho => lookup_objects hv ho, fun ho => objects_of_lookup ho⟩,
    fun type mem o ho => ?_⟩
  · have a := lookup_objects hv h₁
    have b := lookup_objects hv h₂
    rw [he, b] at a
    exact (Option.some.inj a).symm
  · cases mem with
    | false => simp [object_create] at ho
    | true =>
      have hid := create_id_eq_scan limit type (run limit calls) hv
      rw [ho] at hid
      obtain ⟨-, a2, a3, -⟩ := scan_smallest hid.symm
      have hnot : ∀ o' ∈ (run limit calls).tree.objects, o'.id ≠ o.id := by
        intro o' ho' he
        have := lookup_objects hv ho'
        rw [he] at this
        have hc : (run limit calls).tree.contains o.id = true := by
          simp [contains, this]
        simp only at a3
        rw [a3] at hc
        exact absurd hc (by decide)
      refine ⟨a3, hnot, ?_⟩
      unfold object_create at ho ⊢
      simp only [if_true] at ho ⊢
      split at ho
      · simp at ho
      · rename_i id hid'
        simp only at ho ⊢
        have hv' := valid_insert (new_object id type) 0 limit _ hv (Nat.zero_le _)
          ((find_free_spec hv).1 id hid').2.1
        have := (lookup_bounds hv' ho).2.2
        rw [this]
        exact ho

/-- Witness of C2: the ids in the index after a mixed call sequence. -/
theorem live_ids_unique_witness :
    (run 8 [.create 0 true, .create 0 true, .create 0 true, .create 0 true, .get 3, .put 1,
        .destroy 1, .destroy 2]).tree.objects.map (·.id) = [0, 2, 3]
      ∧ ((run 8 [.create 0 true, .create 0 true, .create 0 true, .create 0 true, .get 3,
          .put 1, .destroy 1, .destroy 2]).tree.objects.map (·.id)).Nodup :=
  ⟨by decide, (live_ids_unique 8 [.create 0 true, .create 0 true, .create 0 true,
    .create 0 true, .get 3, .put 1, .destroy 1, .destroy 2]).2.1⟩

/-- C3. Deferred destroy.  For an object in the index of a reachable registry:
`object_destroy` while `refs > 0` leaves the index as it is, records the request, and
`object_get` still returns the object; the `object_put` that takes `refs` from 1 to 0
with a destroy requested erases exactly that object as part of the call (every other
object stays as it was, the request is cleared, a further put or destroy of the id does
nothing more), after which `object_get` of the id reports not-found and a create
succeeds with that id or a smaller unused one.  An object leaves the index only through
a destroy at `refs = 0` or through the put that takes `refs` from 1 to 0 with a destroy
requested, so never while `refs > 0`.  Scenario: create gives id 0, create gives id 1,
destroy of 0 (refs 1) keeps it, put of 0 erases it, get of 0 fails, the next create
returns id 0, for every ceiling of at least two ids. -/
theorem deferred_destroy (limit : Nat) (calls : List Call) (id : Nat) (o : jffs2_object_t)
    (hlook : (run limit calls).tree.lookup id = some o) :
    (0 < o.refs →
        (object_destroy limit id (run limit calls)).tree = (run limit calls).tree
          ∧ (object_destroy limit id (run limit calls)).tree.lookup id = some o
          ∧ id ∈ (object_destroy limit id (run limit calls)).pending
          ∧ (object_get id (object_destroy limit id (run limit calls))).2
              = some { o with refs := (o.refs + 1) % 2 ^ 32 })
      ∧ (o.refs = 1 → id ∈ (run limit calls).pending →
          object_put limit id (run limit calls) = erase limit id (run limit calls)
            ∧ (object_put limit id (run limit calls)).tree.lookup id = none
            ∧ object_get id (object_put limit id (run limit calls))
                = (object_put limit id (run limit calls), none)
            ∧ id ∉ (object_put limit id (run limit calls)).pending
            ∧ (∀ j, j ≠ id → payload j (object_put limit id (run limit calls)).tree
                = payload j (run limit calls).tree)
            ∧ object_put limit id (object_put limit id (run limit calls))
                = object_put limit id (run limit calls)
            ∧ object_destroy limit id (object_put limit id (run limit calls))
                = object_put limit id (run limit calls)
            ∧ (∀ type : Int, ∃ o', (object_create limit type true
                (object_put limit id (run limit calls))).2 = some o' ∧ o'.id ≤ id))
      ∧ (∀ c : Call, (step limit (run limit calls) c).tree.lookup id = none →
          (c = .destroy id ∧ o.refs = 0)
            ∨ (c = .put id ∧ o.refs = 1 ∧ id ∈ (run limit calls).pending))
      ∧ (2 ≤ limit → ∀ t1 t2 t3 : Int,
          (object_create limit t1 true object_init).2.map (fun x => (x.id, x.refs))
              = some (0, 1)
            ∧ (object_create limit t2 true (run limit [.create t1 true])).2.map (·.id)
              = some 1
            ∧ ((run limit [.create t1 true, .create t2 true, .destroy 0]).tree.lookup 0).map
                (fun x => (x.id, x.refs)) = some (0, 1)
            ∧ (run limit [.create t1 true, .create t2 true, .destroy 0]).pending = [0]
            ∧ (run limit [.create t1 true, .create t2 true, .destroy 0, .put 0]).tree.lookup 0
              = none
            ∧ (object_get 0
                (run limit [.create t1 true, .create t2 true, .destroy 0, .put 0])).2 = none
            ∧ (object_create limit t3 true
                (run limit [.create t1 true, .create t2 true, .destroy 0, .put 0])).2.map
                (·.id) = some 0) := by
  have hv := valid_run limit calls
  refine ⟨fun hpos => ?_, fun hone hpend => ?_, fun c hc => lookup_step_none hv hlook c hc,
    fun h2 t1 t2 t3 => deferred_scenario limit h2 t1 t2 t3⟩
  · have htree : (object_destroy limit id (run limit calls)).tree = (run limit calls).tree
        ∧ id ∈ (object_destroy limit id (run limit calls)).pending := by
      unfold object_destroy
      rw [hlook]
      simp only
      rw [if_neg (by omega)]
      split
      · rename_i hin
        exact ⟨rfl, hin⟩
      · exact ⟨rfl, List.mem_cons_self _ _⟩
    refine ⟨htree.1, by rw [htree.1]; exact hlook, htree.2, ?_⟩
    unfold object_get
    rw [htree.1, hlook]
    simp only
    have key := lookup_update id
      (fun x : jffs2_object_t => { x with refs := (x.refs + 1) % 2 ^ 32 }) (fun _ => rfl) id
      (run limit calls).tree
    rw [key, if_pos rfl, hlook]
    rfl
  · have hput : object_put limit id (run limit calls) = erase limit id (run limit calls) := by
      unfold object_put
      rw [hlook]
      simp only
      rw [if_neg (by omega), if_pos ⟨by omega, hpend⟩]
    have hgone := lookup_erase_self hv id
    have hve := valid_erase limit id (run limit calls) hv
    rw [hput]
    refine ⟨rfl, hgone, ?_, ?_, fun j hj => payload_erase_other hv id j hj, ?_, ?_,
      fun type => ?_⟩
    · unfold object_get
      rw [hgone]
    · simp [erase]
    · unfold object_put
      rw [hgone]
    · unfold object_destroy
      rw [hgone]
    · have hlt := (lookup_bounds hv hlook).2.1
      have hfree : (erase limit id (run limit calls)).tree.contains id = false :=
        (contains_false_iff _ _).mpr hgone
      obtain ⟨i, hi, hle⟩ := @scan_some_of_free
        (fun j => (erase limit id (run limit calls)).tree.contains j) limit id hlt hfree
      have hscan := create_id_eq_scan limit type _ hve
      rw [hi] at hscan
      cases hc : (object_create limit type true (erase limit id (run limit calls))).2 with
      | none => rw [hc] at hscan; simp at hscan
      | some o' =>
        rw [hc] at hscan
        simp only [Option.map_some', Option.some.injEq] at hscan
        exact ⟨o', rfl, by omega⟩

/-- Witness of C3: after two creates object 0 is in the index with one reference. -/
theorem deferred_destroy_witness :
    (run 8 [.create 0 true, .create 0 true]).tree.lookup 0
        = some { oid := { id := 0 }, inode_info := 0, refs := 1, type := 0,
                 state := ST_UNLOCKED, lock := 0, rmaxgap := 6, lmaxgap := 0 }
      ∧ (object_destroy 8 0 (run 8 [.create 0 true, .create 0 true])).tree
          = (run 8 [.create 0 true, .create 0 true]).tree
      ∧ 0 ∈ (object_destroy 8 0 (run 8 [.create 0 true, .create 0 true])).pending :=
  have h := deferred_destroy 8 [.create 0 true, .create 0 true] 0
    { oid := { id := 0 }, inode_info := 0, refs := 1, type := 0,
      state := ST_UNLOCKED, lock := 0, rmaxgap := 6, lmaxgap := 0 } (by decide)
  ⟨by decide, (h.1 (by decide)).1, (h.1 (by decide)).2.2.1⟩

/-- C6. Gap annotation invariant: after every sequence of registry calls (insertions by
`object_create`, erasures by `object_destroy` / `object_put`, with the rotations they
trigger) every node's `lmaxgap` is the true length of the longest run of consecutive
unused ids in the range of its left subtree and its `rmaxgap` the same for the range of
its right subtree, both as a property of the run and as the value a scan of the range
computes; the fields also agree with what the children report. -/
theorem gap_fields_exact (limit : Nat) (calls : List Call) :
    GapsExact (fun j => (run limit calls).tree.contains j) 0 limit (run limit calls).tree
      ∧ Valid 0 limit (run limit calls).tree :=
  ⟨gaps_exact_of_valid (valid_run limit calls) (fun _ _ _ => rfl), valid_run limit calls⟩

/-- Witness of C6: the gap fields after a mixed call sequence with ceiling 8: object 0 has
one unused id to its right, object 2 one to its left and four to its right (behind 3). -/
theorem gap_fields_exact_witness :
    (run 8 [.create 0 true, .create 0 true, .create 0 true, .create 0 true, .get 3, .put 1,
        .destroy 1, .destroy 2]).tree.objects.map (fun o => (o.id, o.lmaxgap, o.rmaxgap))
        = [(0, 0, 1), (2, 1, 4), (3, 0, 4)]
      ∧ GapsExact (fun j => (run 8 [.create 0 true, .create 0 true, .create 0 true,
          .create 0 true, .get 3, .put 1, .destroy 1, .destroy 2]).tree.contains j) 0 8
          (run 8 [.create 0 true, .create 0 true, .create 0 true, .create 0 true, .get 3,
            .put 1, .destroy 1, .destroy 2]).tree :=
  ⟨by decide, (gap_fields_exact 8 [.create 0 true, .create 0 true, .create 0 true,
    .create 0 true, .get 3, .put 1, .destroy 1, .destroy 2]).1⟩

end Jffs2
